import Mathlib

/-!
Verification of the libresolv package-dependency resolver core.

The Rust source is shallowly embedded: pure functions become Lean
functions, `u64`/`u32` become `Nat` (arithmetic is reduced `% 2^64`
exactly at the one site where the Rust code can overflow, namely the
`a.1 + 1` in `less_no_overlap`), arena-allocated expression trees
become a plain inductive type, and panics become `Option`/`Except`
failures.
-/

namespace Libresolv

/-! ### Data model (src/types.rs) -/

/-- `Range` from src/types.rs. -/
inductive Range where
  | Interval (lower upper : Nat)
  | Point (v : Nat)
  | All
deriving DecidableEq, Repr

/-- `Range::interval`: `Point` when `lower == upper`, `none` when `lower > upper`. -/
def Range.interval (lower upper : Nat) : Option Range :=
  if lower < upper then some (Range.Interval lower upper)
  else if lower = upper then some (Range.Point lower)
  else none

/-- Denotation of a `Range` as a set of versions: `Interval` is the closed
interval, `Point` a singleton, `All` all nonzero versions. -/
def Range.rmem (r : Range) (n : Nat) : Prop :=
  match r with
  | Range.Interval l u => l ≤ n ∧ n ≤ u
  | Range.Point v => n = v
  | Range.All => n ≠ 0

instance (r : Range) (n : Nat) : Decidable (r.rmem n) := by
  cases r <;> simp [Range.rmem] <;> infer_instance

/-- `Requirement` from src/types.rs; the `Vec1` of ranges is embedded as a
plain list (nonemptiness is carried as a hypothesis where needed). -/
structure Requirement where
  package : Nat
  versions : List Range
deriving DecidableEq, Repr

/-- `RequirementSet` from src/types.rs. -/
structure RequirementSet where
  dependencies : List Requirement
  conflicts : List Requirement
deriving DecidableEq, Repr

/-- `&RequirementSet`'s `IntoIterator`: dependencies chained with conflicts. -/
def RequirementSet.toList (rs : RequirementSet) : List Requirement :=
  rs.dependencies ++ rs.conflicts

structure PackageVer where
  requirements : RequirementSet
deriving DecidableEq, Repr

structure Package where
  id : Nat
  versions : List PackageVer
deriving DecidableEq, Repr

def Package.newest_version_number (p : Package) : Nat :=
  p.versions.length

structure Repository where
  packages : List Package
deriving DecidableEq, Repr

def Repository.get_package (repo : Repository) (id : Nat) : Option Package :=
  repo.packages.get? id

def Repository.newest_ver_of (repo : Repository) (id : Nat) : Option Nat :=
  (repo.get_package id).map Package.newest_version_number

/-! ### Symbolic expressions (src/types/expr.rs) -/

inductive AtomicExpr where
  | VerEq (pid : Nat) (version : Nat)
  | VerLE (pid : Nat) (version : Nat)
  | VerGE (pid : Nat) (version : Nat)
deriving DecidableEq, Repr

def AtomicExpr.ver_eq (pid : Nat) (version : Nat) : AtomicExpr :=
  AtomicExpr.VerEq pid version

def AtomicExpr.ver_le (pid : Nat) (version : Nat) : AtomicExpr :=
  AtomicExpr.VerLE pid version

def AtomicExpr.ver_ge (pid : Nat) (version : Nat) : AtomicExpr :=
  AtomicExpr.VerGE pid version

/-- `Expr<'a>` from src/types/expr.rs; the arena references become direct
subterms. -/
inductive Expr where
  | Atom (a : AtomicExpr)
  | Not (e : Expr)
  | And (l r : Expr)
  | Or (l r : Expr)
  | Implies (l r : Expr)
  | Bot
  | Top
deriving DecidableEq, Repr

/-- `Expr::not` — collapses a double negation eagerly. -/
def Expr.not (e : Expr) : Expr :=
  match e with
  | Expr.Not inner => inner
  | _ => Expr.Not e

def Expr.and (e1 e2 : Expr) : Expr := Expr.And e1 e2

def Expr.or (e1 e2 : Expr) : Expr := Expr.Or e1 e2

def Expr.implies (e1 e2 : Expr) : Expr := Expr.Implies e1 e2

def Expr.bot : Expr := Expr.Bot

def Expr.top : Expr := Expr.Top

/-- No sub-expression of the shape `Not (Not _)` occurs. -/
def Expr.noDoubleNeg : Expr → Bool
  | Expr.Not (Expr.Not _) => false
  | Expr.Not e => e.noDoubleNeg
  | Expr.And a b => a.noDoubleNeg && b.noDoubleNeg
  | Expr.Or a b => a.noDoubleNeg && b.noDoubleNeg
  | Expr.Implies a b => a.noDoubleNeg && b.noDoubleNeg
  | _ => true

/-! ### Pretty printing (src/types/expr.rs, `DisplayPrec`) -/

/-- The `Chain` poset combinator. -/
inductive PChain (T V : Type) where
  | Top (t : T)
  | Bot (v : V)
deriving DecidableEq, Repr

/-- The `AntiChain` poset combinator. -/
inductive PAntiChain (L R : Type) where
  | Left (l : L)
  | Right (r : R)
deriving DecidableEq, Repr

/-- `partial_cmp` for `Chain`. -/
def chainCmp {T V : Type} (cmpT : T → T → Option Ordering) (cmpV : V → V → Option Ordering) :
    PChain T V → PChain T V → Option Ordering
  | PChain.Top _, PChain.Bot _ => some Ordering.gt
  | PChain.Bot _, PChain.Top _ => some Ordering.lt
  | PChain.Top a, PChain.Top b => cmpT a b
  | PChain.Bot a, PChain.Bot b => cmpV a b

/-- `partial_cmp` for `AntiChain`. -/
def antiChainCmp {L R : Type} (cmpL : L → L → Option Ordering) (cmpR : R → R → Option Ordering) :
    PAntiChain L R → PAntiChain L R → Option Ordering
  | PAntiChain.Left _, PAntiChain.Right _ => none
  | PAntiChain.Right _, PAntiChain.Left _ => none
  | PAntiChain.Left a, PAntiChain.Left b => cmpL a b
  | PAntiChain.Right a, PAntiChain.Right b => cmpR a b

def natCmp (a b : Nat) : Option Ordering := some (compare a b)

def unitCmp (_ _ : Unit) : Option Ordering := some Ordering.eq

/-- `ExprPrec = Chain<u8, Chain<AntiChain<(), ()>, u8>>`. -/
abbrev ExprPrec := PChain Nat (PChain (PAntiChain Unit Unit) Nat)

def precCmp (a b : ExprPrec) : Option Ordering :=
  chainCmp natCmp (chainCmp (antiChainCmp unitCmp unitCmp) natCmp) a b

/-- Rust `prec <= q` via `PartialOrd`: true when `partial_cmp` is `Less` or `Equal`. -/
def precLE (a b : ExprPrec) : Bool :=
  match precCmp a b with
  | some Ordering.lt => true
  | some Ordering.eq => true
  | _ => false

def OUTER_PREC : ExprPrec := PChain.Bot (PChain.Bot 0)
def NOT_PREC : ExprPrec := PChain.Top 0
def AND_PREC : ExprPrec := PChain.Bot (PChain.Top (PAntiChain.Left ()))
def OR_PREC : ExprPrec := PChain.Bot (PChain.Top (PAntiChain.Right ()))
def IMPL_PREC : ExprPrec := PChain.Bot (PChain.Bot 1)
def IMPL_PREC_L : ExprPrec := PChain.Bot (PChain.Bot 2)

def AtomicExpr.render : AtomicExpr → String
  | AtomicExpr.VerEq pid version => "Ver(" ++ toString pid ++ ") = " ++ toString version
  | AtomicExpr.VerLE pid version => "Ver(" ++ toString pid ++ ") ≤ " ++ toString version
  | AtomicExpr.VerGE pid version => "Ver(" ++ toString pid ++ ") ≥ " ++ toString version

/-- `DisplayPrec::fmt_prec` for `Expr`. -/
def Expr.fmt_prec : Expr → ExprPrec → String
  | Expr.Atom a, _ => a.render
  | Expr.Not e, _ => "¬" ++ e.fmt_prec NOT_PREC
  | Expr.And l r, prec =>
      let s := l.fmt_prec AND_PREC ++ " ∧ " ++ r.fmt_prec AND_PREC
      if precLE prec AND_PREC then s else "(" ++ s ++ ")"
  | Expr.Or l r, prec =>
      let s := l.fmt_prec OR_PREC ++ " ∨ " ++ r.fmt_prec OR_PREC
      if precLE prec OR_PREC then s else "(" ++ s ++ ")"
  | Expr.Implies l r, prec =>
      let s := l.fmt_prec IMPL_PREC_L ++ " → " ++ r.fmt_prec IMPL_PREC
      if precLE prec IMPL_PREC then s else "(" ++ s ++ ")"
  | Expr.Bot, _ => "⊤"
  | Expr.Top, _ => "⊥"

/-- `Display` via `ViaDisplayPrec` uses the default precedence `OUTER_PREC`. -/
def Expr.render (e : Expr) : String := e.fmt_prec OUTER_PREC

/-! ### Range algebra (src/utils.rs) -/

/-- Size of the `u64` value space; the `a.1 + 1` in `less_no_overlap` is the
one place where Rust `u64` arithmetic can wrap, so that addition is reduced
modulo `2^64`. -/
def UMAX : Nat := 2 ^ 64

def wsucc (n : Nat) : Nat := (n + 1) % UMAX

abbrev IInterval := Nat × Nat

def less_no_overlap (a b : IInterval) : Bool := wsucc a.2 < b.1

def greater_no_overlap (a b : IInterval) : Bool := less_no_overlap b a

def overlapsI (a b : IInterval) : Bool := !(less_no_overlap a b || greater_no_overlap a b)

def mergeI (a b : IInterval) : IInterval := (min a.1 b.1, max a.2 b.2)

/-- `merge_insert` from src/utils.rs: the three sequential
`peeking_take_while` phases become `takeWhile`/`dropWhile` splits. -/
def merge_insert (iset : List IInterval) (interval : IInterval) : List IInterval :=
  let initPart := iset.takeWhile (fun i => less_no_overlap i interval)
  let rest := iset.dropWhile (fun i => less_no_overlap i interval)
  let overlPart := rest.takeWhile (fun i => overlapsI i interval)
  let tailPart := rest.dropWhile (fun i => overlapsI i interval)
  initPart ++ [overlPart.foldl mergeI interval] ++ tailPart

/-- The final mapping step of `merge_and_sort_ranges`: an interval with
`lower == upper` is emitted as `Point`. -/
def toRangeI (p : IInterval) : Range :=
  if p.1 = p.2 then Range.Point p.1 else Range.Interval p.1 p.2

/-- The loop of `merge_and_sort_ranges`, with the early return on `All`. -/
def msr_go : List Range → List IInterval → List Range
  | [], iset => iset.map toRangeI
  | Range.Interval l u :: rest, iset => msr_go rest (merge_insert iset (l, u))
  | Range.Point p :: rest, iset => msr_go rest (merge_insert iset (p, p))
  | Range.All :: _, _ => [Range.All]

/-- `merge_and_sort_ranges` from src/utils.rs. -/
def merge_and_sort_ranges (ranges : List Range) : List Range :=
  msr_go ranges []

/-! ### SMT constraints (the `z3::ast::Bool` values the encoder builds) -/

/-- Deep embedding of the exact boolean/integer constraint shapes the encoder
emits to the SMT engine: `Bool::from_bool(false)`, `v == k`, `v >= k`,
`v <= k`, negation, conjunction, disjunction, implication, where `v` is the
integer constant named by a package id. -/
inductive SBool where
  | bfalse
  | beq (pid : Nat) (k : Nat)
  | bge (pid : Nat) (k : Nat)
  | ble (pid : Nat) (k : Nat)
  | bnot (a : SBool)
  | band (a b : SBool)
  | bor (a b : SBool)
  | bimp (a b : SBool)
deriving DecidableEq, Repr

/-- Evaluation of an SMT constraint under an integer assignment to the
per-package variables. -/
def SBool.evalB (σ : Nat → Nat) : SBool → Bool
  | SBool.bfalse => false
  | SBool.beq p k => σ p == k
  | SBool.bge p k => k ≤ σ p
  | SBool.ble p k => σ p ≤ k
  | SBool.bnot a => !(a.evalB σ)
  | SBool.band a b => a.evalB σ && b.evalB σ
  | SBool.bor a b => a.evalB σ || b.evalB σ
  | SBool.bimp a b => !(a.evalB σ) || b.evalB σ

/-- Evaluation of a symbolic mirror under the natural reading of its atoms. -/
def Expr.evalB (σ : Nat → Nat) : Expr → Bool
  | Expr.Atom (AtomicExpr.VerEq p k) => σ p == k
  | Expr.Atom (AtomicExpr.VerLE p k) => σ p ≤ k
  | Expr.Atom (AtomicExpr.VerGE p k) => k ≤ σ p
  | Expr.Not e => !(e.evalB σ)
  | Expr.And a b => a.evalB σ && b.evalB σ
  | Expr.Or a b => a.evalB σ || b.evalB σ
  | Expr.Implies a b => !(a.evalB σ) || b.evalB σ
  | Expr.Bot => false
  | Expr.Top => true

/-! ### The dual encoder (src/constraints.rs) -/

/-- The loop body of `<Requirement as AsConstraints>::add_constraints`:
folds the canonical ranges into the SMT constraint (starting from `false`)
and the mirror (starting from `Bot`, which the first range replaces). -/
def req_loop (P : Nat) : SBool → Expr → List Range → SBool × Expr
  | c, m, [] => (c, m)
  | c, m, Range.Interval lower upper :: rest =>
      let c' := SBool.bor c (SBool.band (SBool.bge P lower) (SBool.ble P upper))
      let range_expr := Expr.and (Expr.Atom (AtomicExpr.ver_ge P lower))
        (Expr.Atom (AtomicExpr.ver_le P upper))
      let m' := if m = Expr.Bot then range_expr else Expr.or range_expr m
      req_loop P c' m' rest
  | c, m, Range.Point v2 :: rest =>
      let c' := SBool.bor c (SBool.beq P v2)
      let point_expr := Expr.Atom (AtomicExpr.ver_eq P v2)
      let m' := if m = Expr.Bot then point_expr else Expr.or point_expr m
      req_loop P c' m' rest
  | _, _, Range.All :: _ =>
      (SBool.bnot (SBool.beq P 0), Expr.not (Expr.Atom (AtomicExpr.ver_eq P 0)))

/-- The single `(constraint, mirror)` pair a `Requirement` emits. -/
def Requirement.constraint_pair (req : Requirement) : SBool × Expr :=
  req_loop req.package SBool.bfalse Expr.bot (merge_and_sort_ranges req.versions)

/-- `<Requirement as AsConstraints>::add_constraints`: the continuation is
invoked exactly once, with the folded pair. -/
def Requirement.add_constraints (req : Requirement) : List (SBool × Expr) :=
  [req.constraint_pair]

/-- The negated pair a conflict emits through `reversed_cont`. -/
def Requirement.conflict_pair (req : Requirement) : SBool × Expr :=
  (SBool.bnot req.constraint_pair.1, Expr.not req.constraint_pair.2)

/-- `<RequirementSet as AsConstraints>::add_constraints`: dependencies pass
through unchanged, then conflicts are emitted negated. -/
def RequirementSet.add_constraints (rs : RequirementSet) : List (SBool × Expr) :=
  rs.dependencies.map Requirement.constraint_pair
    ++ rs.conflicts.map Requirement.conflict_pair

/-- `<Package as AsConstraints>::add_constraints`: ground lower bound, then
the version loop with its counter, then the ground upper bound. -/
def Package.add_constraints (p : Package) : List (SBool × Expr) :=
  let start : List (SBool × Expr) :=
    [(SBool.bge p.id 0, Expr.Atom (AtomicExpr.ver_ge p.id 0))]
  let step := p.versions.foldl
    (fun (acc : List (SBool × Expr) × Nat) ver =>
      let ver_counter := acc.2 + 1
      (acc.1 ++ (ver.requirements.add_constraints).map
        (fun cm =>
          (SBool.bimp (SBool.beq p.id ver_counter) cm.1,
           Expr.implies (Expr.Atom (AtomicExpr.ver_eq p.id ver_counter)) cm.2)),
       ver_counter))
    (start, 0)
  step.1 ++ [(SBool.ble p.id step.2, Expr.Atom (AtomicExpr.ver_le p.id step.2))]

/-- `add_all_constraints` from src/constraints.rs; the
`get_package_unchecked` panic on an out-of-bounds id becomes `none`. -/
def add_all_constraints (repo : Repository) (pids : List Nat)
    (requirements : RequirementSet) : Option (List (SBool × Expr)) :=
  (pids.mapM (fun pid => (repo.get_package pid).map Package.add_constraints)).map
    (fun blocks => blocks.flatten ++ requirements.add_constraints)

/-! ### Unsat-core decoding (src/solver.rs) -/

/-- The inner `go` of `process_version_range`; the `panic!`/`assert_eq!`
failures become `none`.  The mutable `lb`/`ub` (initialised to `0`) of the
`And` branch are threaded explicitly. -/
def pvr_go : Expr → Option (Nat × List Range)
  | Expr.Atom (AtomicExpr.VerEq pid version) =>
      some (pid, [Range.Point version])
  | Expr.And lhs rhs => do
      let s1 : Nat × Nat × Nat ←
        match lhs with
        | Expr.Atom (AtomicExpr.VerGE pid version) => some (pid, version, 0)
        | Expr.Atom (AtomicExpr.VerLE pid version) => some (pid, 0, version)
        | _ => none
      let s2 : Nat × Nat ←
        match rhs with
        | Expr.Atom (AtomicExpr.VerGE pid version) =>
            if pid = s1.1 then some (version, s1.2.2) else none
        | Expr.Atom (AtomicExpr.VerLE pid version) =>
            if pid = s1.1 then some (s1.2.1, version) else none
        | _ => none
      let r ← Range.interval s2.1 s2.2
      some (s1.1, [r])
  | Expr.Or lhs rhs => do
      let p1 ← pvr_go lhs
      let p2 ← pvr_go rhs
      if p1.1 = p2.1 then some (p1.1, p1.2 ++ p2.2) else none
  | Expr.Not (Expr.Atom (AtomicExpr.VerEq pid 0)) =>
      some (pid, [Range.All])
  | _ => none

/-- `process_version_range` from src/solver.rs. -/
def process_version_range (e : Expr) : Option Requirement :=
  (pvr_go e).map (fun pr => { package := pr.1, versions := pr.2 })

/-- The action `process_unsat_core` takes for a single core assertion. -/
inductive DecodeStep where
  | discard (pid : Nat)
  | topDep (req : Requirement)
  | topConf (req : Requirement)
  | pkgReq (pid : Nat) (version : Nat) (reverse : Bool) (req : Requirement)
deriving DecidableEq, Repr

/-- One iteration of the `process_unsat_core` loop, classifying a mirror;
`none` models the `panic!`/`assert_eq!` failures (including the
`newest_ver_of_unchecked` lookup of the `VerLE` arm). -/
def decode_assertion (repo : Repository) : Expr → Option DecodeStep
  | Expr.Atom (AtomicExpr.VerEq pid version) =>
      if version = 0 then
        some (DecodeStep.topConf { package := pid, versions := [Range.All] })
      else
        some (DecodeStep.topDep { package := pid, versions := [Range.Point version] })
  | Expr.Atom (AtomicExpr.VerLE pid version) => do
      let n ← repo.newest_ver_of pid
      if version = n then some (DecodeStep.discard pid) else none
  | Expr.Atom (AtomicExpr.VerGE pid version) =>
      if version = 0 then some (DecodeStep.discard pid) else none
  | Expr.Not e =>
      (process_version_range e).map DecodeStep.topConf
  | Expr.Implies (Expr.Atom (AtomicExpr.VerEq pid version)) rhs =>
      match rhs with
      | Expr.Atom (AtomicExpr.VerEq pid2 0) =>
          some (DecodeStep.pkgReq pid version true
            { package := pid2, versions := [Range.All] })
      | Expr.Not e =>
          (process_version_range e).map (DecodeStep.pkgReq pid version true)
      | _ =>
          (process_version_range rhs).map (DecodeStep.pkgReq pid version false)
  | e => (process_version_range e).map DecodeStep.topDep

/-- `ConstraintSet` from src/types.rs; the nested `IntMap`s become
association lists. -/
structure ConstraintSet where
  package_reqs : List (Nat × List (Nat × RequirementSet))
  toplevel_reqs : RequirementSet
deriving DecidableEq, Repr

def RequirementSet.from_dep (dep : Requirement) : RequirementSet :=
  { dependencies := [dep], conflicts := [] }

def RequirementSet.from_antidep (antidep : Requirement) : RequirementSet :=
  { dependencies := [], conflicts := [antidep] }

def RequirementSet.add_dep (rs : RequirementSet) (dep : Requirement) : RequirementSet :=
  { rs with dependencies := rs.dependencies ++ [dep] }

def RequirementSet.add_antidep (rs : RequirementSet) (antidep : Requirement) : RequirementSet :=
  { rs with conflicts := rs.conflicts ++ [antidep] }

/-- The `package_reqs` insertion logic of the `Implies` arm of
`process_unsat_core`. -/
def insert_pkg_req (m : List (Nat × List (Nat × RequirementSet)))
    (pid : Nat) (version : Nat) (reverse : Bool) (req : Requirement) :
    List (Nat × List (Nat × RequirementSet)) :=
  let fresh : RequirementSet :=
    if reverse then RequirementSet.from_antidep req else RequirementSet.from_dep req
  match m.lookup pid with
  | some verMap =>
      let verMap' :=
        match verMap.lookup version with
        | some reqSet =>
            let reqSet' :=
              if reverse then reqSet.add_antidep req else reqSet.add_dep req
            verMap.map (fun kv => if kv.1 = version then (kv.1, reqSet') else kv)
        | none => verMap ++ [(version, fresh)]
      m.map (fun kv => if kv.1 = pid then (kv.1, verMap') else kv)
  | none => m ++ [(pid, [(version, fresh)])]

/-- The loop state of `process_unsat_core`: the top-level dependency and
conflict vectors plus the package requirement map. -/
structure CoreState where
  package_reqs : List (Nat × List (Nat × RequirementSet))
  dependencies : List Requirement
  conflicts : List Requirement

def CoreState.apply (st : CoreState) : DecodeStep → CoreState
  | DecodeStep.discard _ => st
  | DecodeStep.topDep req => { st with dependencies := st.dependencies ++ [req] }
  | DecodeStep.topConf req => { st with conflicts := st.conflicts ++ [req] }
  | DecodeStep.pkgReq pid version reverse req =>
      { st with package_reqs := insert_pkg_req st.package_reqs pid version reverse req }

/-- `process_unsat_core` from src/solver.rs, as a fold over the core
assertions; any unmatched shape yields `none` (a panic in the source). -/
def process_unsat_core (repo : Repository) (core_assertions : List Expr) :
    Option ConstraintSet := do
  let st ← core_assertions.foldlM
    (fun st e => (decode_assertion repo e).map st.apply)
    { package_reqs := [], dependencies := [], conflicts := [] : CoreState }
  some { package_reqs := st.package_reqs,
         toplevel_reqs := { dependencies := st.dependencies, conflicts := st.conflicts } }

/-! ### Closure computation (src/constraints.rs) -/

/-- The requirements of one `PackageVer`, in the iteration order of
`(&ver.requirements).into_iter()`. -/
def PackageVer.reqList (ver : PackageVer) : List Requirement :=
  ver.requirements.toList

/-- All requirements of every version of a package, in version order. -/
def Package.allReqs (p : Package) : List Requirement :=
  (p.versions.map PackageVer.reqList).flatten

/-- `find_closure_helper` from src/constraints.rs.  The depth-first
recursion over each newly inserted package's versions is rendered with an
explicit worklist: discovering a fresh in-bounds package prepends all of its
versions' requirements.  The accumulator set (`SetU32`) is a duplicate-free
list; `IllegalIndex` becomes `Except.error` carrying the offending id. -/
def find_closure_helper (repo : Repository) :
    List Requirement → List Nat → Except Nat (List Nat)
  | [], acc => Except.ok acc
  | req :: rest, acc =>
      if req.package ∈ acc then
        find_closure_helper repo rest acc
      else if h : req.package < repo.packages.length then
        find_closure_helper repo
          ((repo.packages.get ⟨req.package, h⟩).allReqs ++ rest)
          (req.package :: acc)
      else
        Except.error req.package
termination_by wl acc =>
  (((Finset.range repo.packages.length).filter (fun p => p ∉ acc)).card, wl.length)
decreasing_by
  all_goals simp_wf
  · exact Prod.Lex.right _ (Nat.lt_succ_self _)
  · apply Prod.Lex.left
    apply Finset.card_lt_card
    apply Finset.ssubset_iff_of_subset ?sub |>.mpr
    case sub =>
      intro x hx
      simp only [Finset.mem_filter, Finset.mem_range, List.mem_cons, not_or] at hx ⊢
      exact ⟨hx.1, hx.2.2⟩
    · refine ⟨req.package, ?_, ?_⟩
      · simp only [Finset.mem_filter, Finset.mem_range]
        exact ⟨h, by assumption⟩
      · simp

/-- `find_closure` from src/constraints.rs, applied to the requirement
iterator of the top-level `RequirementSet`. -/
def find_closure (repo : Repository) (reqs : List Requirement) :
    Except Nat (List Nat) :=
  find_closure_helper repo reqs []

/-! ### `iter_max_map` (src/internals/utils.rs) -/

/-- `iter_max_map`: streaming max-by-evaluation, mapping retained items with
`f`; `c.cmp(&e)` on a total order is rendered with two comparisons. -/
def iter_max_map {T W : Type} {V : Type} [LinearOrder V]
    (l : List T) (eval : T → V) (f : T → W) : List W :=
  (l.foldl
    (fun (acc : Option V × List W) i =>
      match acc.1 with
      | some c =>
          if c < eval i then (some (eval i), [f i])
          else if eval i < c then acc
          else (acc.1, acc.2 ++ [f i])
      | none => (some (eval i), [f i]))
    (none, [])).2

/-- Top-level constructor test: is the expression itself a double negation? -/
def Expr.isDoubleNegTop : Expr → Bool
  | Expr.Not (Expr.Not _) => true
  | _ => false

/-! ## Claim C2 — merge_and_sort_ranges -/

/-- Membership of a version in one of the merge loop's intervals. -/
def imem (v : Nat) (x : IInterval) : Prop := x.1 ≤ v ∧ v ≤ x.2

/-- Well-formedness of a loop interval: nonempty and its `upper + 1` does
not wrap at `u64` width. -/
def IWF (x : IInterval) : Prop := x.1 ≤ x.2 ∧ x.2 + 1 < UMAX

/-- The invariant of the interval set: pairwise sorted, disjoint and
non-adjacent, with well-formed members. -/
def CanonI (iset : List IInterval) : Prop :=
  iset.Pairwise (fun a b => a.2 + 1 < b.1) ∧ ∀ x ∈ iset, IWF x

/-- A valid input range per the data model: bounds are nonzero `u64`
values whose successor does not wrap, and interval bounds are ordered. -/
def ValidRange : Range → Prop
  | Range.Interval l u => 1 ≤ l ∧ l < u ∧ u + 1 < UMAX
  | Range.Point p => 1 ≤ p ∧ p + 1 < UMAX
  | Range.All => True

instance (r : Range) : Decidable (ValidRange r) := by
  cases r <;> simp [ValidRange] <;> infer_instance

def rLower : Range → Nat
  | Range.Interval l _ => l
  | Range.Point v => v
  | Range.All => 0

def rUpper : Range → Nat
  | Range.Interval _ u => u
  | Range.Point v => v
  | Range.All => 0

lemma wsucc_eq {n : Nat} (h : n + 1 < UMAX) : wsucc n = n + 1 :=
  Nat.mod_eq_of_lt h

lemma lno_true_iff {a b : IInterval} (ha : a.2 + 1 < UMAX) :
    less_no_overlap a b = true ↔ a.2 + 1 < b.1 := by
  simp [less_no_overlap, wsucc_eq ha]

lemma lno_false_iff {a b : IInterval} (ha : a.2 + 1 < UMAX) :
    less_no_overlap a b = false ↔ b.1 ≤ a.2 + 1 := by
  rw [← Bool.not_eq_true, lno_true_iff ha]
  omega

lemma overlapsI_true_iff {a b : IInterval} (ha : a.2 + 1 < UMAX) (hb : b.2 + 1 < UMAX) :
    overlapsI a b = true ↔ (b.1 ≤ a.2 + 1 ∧ a.1 ≤ b.2 + 1) := by
  simp [overlapsI, greater_no_overlap, lno_false_iff ha, lno_false_iff hb]

/-- All the linear facts about `mergeI` that `omega` needs, with the
`min`/`max` atoms pinned by `min_choice`/`max_choice` case splits. -/
lemma mergeI_facts (a b : IInterval) :
    (mergeI a b).1 ≤ a.1 ∧ (mergeI a b).1 ≤ b.1 ∧ a.2 ≤ (mergeI a b).2 ∧
    b.2 ≤ (mergeI a b).2 ∧ ((mergeI a b).1 = a.1 ∨ (mergeI a b).1 = b.1) ∧
    ((mergeI a b).2 = a.2 ∨ (mergeI a b).2 = b.2) := by
  simp only [mergeI]
  exact ⟨min_le_left _ _, min_le_right _ _, le_max_left _ _, le_max_right _ _,
    min_choice _ _, max_choice _ _⟩

lemma head_dropWhile_false {α : Type} (p : α → Bool) :
    ∀ (l : List α) (h : α) (t : List α), l.dropWhile p = h :: t → p h = false := by
  intro l
  induction l with
  | nil => intro h t hx; simp [List.dropWhile] at hx
  | cons a l ih =>
      intro h t hx
      by_cases hp : p a
      · rw [List.dropWhile_cons_of_pos hp] at hx
        exact ih h t hx
      · rw [List.dropWhile_cons_of_neg hp] at hx
        cases hx
        exact Bool.of_not_eq_true hp

lemma takeWhile_eq_self_of_all {α : Type} (p : α → Bool) :
    ∀ (l : List α), (∀ a ∈ l, p a = true) → l.takeWhile p = l := by
  intro l
  induction l with
  | nil => intro _; rfl
  | cons a l ih =>
      intro hall
      rw [List.takeWhile_cons_of_pos (hall a (List.mem_cons_self a l))]
      rw [ih (fun x hx => hall x (List.mem_cons_of_mem a hx))]

lemma dropWhile_eq_nil_of_all {α : Type} (p : α → Bool) :
    ∀ (l : List α), (∀ a ∈ l, p a = true) → l.dropWhile p = [] := by
  intro l
  induction l with
  | nil => intro _; rfl
  | cons a l ih =>
      intro hall
      rw [List.dropWhile_cons_of_pos (hall a (List.mem_cons_self a l))]
      exact ih (fun x hx => hall x (List.mem_cons_of_mem a hx))

lemma foldl_mergeI_lower_lt (k : Nat) :
    ∀ (B : List IInterval) (acc : IInterval), k < acc.1 → (∀ b ∈ B, k < b.1) →
      k < (B.foldl mergeI acc).1 := by
  intro B
  induction B with
  | nil => intro acc h _; exact h
  | cons b B ih =>
      intro acc hacc hall
      refine ih (mergeI acc b) ?_ (fun x hx => hall x (List.mem_cons_of_mem b hx))
      have hb := hall b (List.mem_cons_self b B)
      obtain ⟨m1, m2, m3, m4, hc1, hc2⟩ := mergeI_facts acc b
      rcases hc1 with h | h <;> omega

lemma foldl_mergeI_upper_lt (k : Nat) :
    ∀ (B : List IInterval) (acc : IInterval), acc.2 + 1 < k → (∀ b ∈ B, b.2 + 1 < k) →
      (B.foldl mergeI acc).2 + 1 < k := by
  intro B
  induction B with
  | nil => intro acc h _; exact h
  | cons b B ih =>
      intro acc hacc hall
      refine ih (mergeI acc b) ?_ (fun x hx => hall x (List.mem_cons_of_mem b hx))
      have hb := hall b (List.mem_cons_self b B)
      obtain ⟨m1, m2, m3, m4, hc1, hc2⟩ := mergeI_facts acc b
      rcases hc2 with h | h <;> omega

lemma foldl_mergeI_wf :
    ∀ (B : List IInterval) (acc : IInterval), IWF acc → (∀ b ∈ B, IWF b) →
      IWF (B.foldl mergeI acc) := by
  intro B
  induction B with
  | nil => intro acc h _; exact h
  | cons b B ih =>
      intro acc hacc hall
      refine ih (mergeI acc b) ?_ (fun x hx => hall x (List.mem_cons_of_mem b hx))
      have hb := hall b (List.mem_cons_self b B)
      obtain ⟨m1, m2, m3, m4, hc1, hc2⟩ := mergeI_facts acc b
      simp only [IWF] at hacc hb ⊢
      rcases hc1 with h | h <;> rcases hc2 with h' | h' <;> omega

lemma foldl_mergeI_union (I : IInterval) :
    ∀ (B : List IInterval) (acc : IInterval), IWF acc →
      (∀ b ∈ B, IWF b ∧ I.1 ≤ b.2 + 1 ∧ b.1 ≤ I.2 + 1) →
      acc.1 ≤ I.1 → I.2 ≤ acc.2 →
      ∀ v, imem v (B.foldl mergeI acc) ↔ (imem v acc ∨ ∃ b ∈ B, imem v b) := by
  intro B
  induction B with
  | nil => intro acc _ _ _ _ v; simp [List.foldl]
  | cons b B ih =>
      intro acc hacc hall hlo hhi v
      have hb := hall b (List.mem_cons_self b B)
      obtain ⟨m1, m2, m3, m4, hc1, hc2⟩ := mergeI_facts acc b
      have step : ∀ w, imem w (mergeI acc b) ↔ (imem w acc ∨ imem w b) := by
        intro w
        simp only [imem, IWF] at *
        rcases hc1 with h | h <;> rcases hc2 with h' | h' <;> omega
      have hacc' : IWF (mergeI acc b) := by
        simp only [IWF] at hacc hb ⊢
        rcases hc1 with h | h <;> rcases hc2 with h' | h' <;> omega
      have hlo' : (mergeI acc b).1 ≤ I.1 := by omega
      have hhi' : I.2 ≤ (mergeI acc b).2 := by omega
      rw [List.foldl_cons,
        ih (mergeI acc b) hacc' (fun x hx => hall x (List.mem_cons_of_mem b hx)) hlo' hhi' v]
      rw [step v]
      simp only [List.mem_cons]
      constructor
      · rintro ((h | h) | ⟨x, hx, h⟩)
        · exact Or.inl h
        · exact Or.inr ⟨b, Or.inl rfl, h⟩
        · exact Or.inr ⟨x, Or.inr hx, h⟩
      · rintro (h | ⟨x, hx | hx, h⟩)
        · exact Or.inl (Or.inl h)
        · subst hx; exact Or.inl (Or.inr h)
        · exact Or.inr ⟨x, hx, h⟩

/-- The strictly-less prefix of `merge_insert`. -/
def phaseA (iset : List IInterval) (I : IInterval) : List IInterval :=
  iset.takeWhile (fun i => less_no_overlap i I)

/-- The remainder after the strictly-less prefix. -/
def phaseR (iset : List IInterval) (I : IInterval) : List IInterval :=
  iset.dropWhile (fun i => less_no_overlap i I)

/-- The overlapping-or-adjacent group of `merge_insert`. -/
def phaseB (iset : List IInterval) (I : IInterval) : List IInterval :=
  (phaseR iset I).takeWhile (fun i => overlapsI i I)

/-- The strictly-greater suffix of `merge_insert`. -/
def phaseC (iset : List IInterval) (I : IInterval) : List IInterval :=
  (phaseR iset I).dropWhile (fun i => overlapsI i I)

lemma merge_insert_eq (iset : List IInterval) (I : IInterval) :
    merge_insert iset I =
      phaseA iset I ++ [(phaseB iset I).foldl mergeI I] ++ phaseC iset I := rfl

lemma merge_insert_spec (iset : List IInterval) (I : IInterval)
    (hc : CanonI iset) (hI : IWF I) :
    CanonI (merge_insert iset I) ∧
      ∀ v, ((∃ x ∈ merge_insert iset I, imem v x) ↔
        ((∃ x ∈ iset, imem v x) ∨ imem v I)) := by
  obtain ⟨hpair, hwf⟩ := hc
  have hsplit1 : phaseA iset I ++ phaseR iset I = iset := by
    simp only [phaseA, phaseR]
    exact List.takeWhile_append_dropWhile _ _
  have hsplit2 : phaseB iset I ++ phaseC iset I = phaseR iset I := by
    simp only [phaseB, phaseC]
    exact List.takeWhile_append_dropWhile _ _
  have hsubA : List.Sublist (phaseA iset I) iset := List.takeWhile_sublist _
  have hsubR : List.Sublist (phaseR iset I) iset := List.dropWhile_sublist _
  have hsubB : List.Sublist (phaseB iset I) (phaseR iset I) := List.takeWhile_sublist _
  have hsubC : List.Sublist (phaseC iset I) (phaseR iset I) := List.dropWhile_sublist _
  have hwfA : ∀ x ∈ phaseA iset I, IWF x := fun x hx => hwf x (hsubA.mem hx)
  have hwfR : ∀ x ∈ phaseR iset I, IWF x := fun x hx => hwf x (hsubR.mem hx)
  have hwfB : ∀ x ∈ phaseB iset I, IWF x := fun x hx => hwfR x (hsubB.mem hx)
  have hwfC : ∀ x ∈ phaseC iset I, IWF x := fun x hx => hwfR x (hsubC.mem hx)
  have pairR : (phaseR iset I).Pairwise (fun a b => a.2 + 1 < b.1) :=
    hpair.sublist hsubR
  have pairA : (phaseA iset I).Pairwise (fun a b => a.2 + 1 < b.1) :=
    hpair.sublist hsubA
  have pairC : (phaseC iset I).Pairwise (fun a b => a.2 + 1 < b.1) :=
    pairR.sublist hsubC
  have memA : ∀ a ∈ phaseA iset I, a.2 + 1 < I.1 := by
    intro a ha
    have ha' := ha
    simp only [phaseA] at ha'
    have hpa := List.mem_takeWhile_imp ha'
    simp only [] at hpa
    exact (lno_true_iff (hwfA a ha).2).mp hpa
  have memB : ∀ b ∈ phaseB iset I, I.1 ≤ b.2 + 1 ∧ b.1 ≤ I.2 + 1 := by
    intro b hb
    have hb' := hb
    simp only [phaseB] at hb'
    have hpb := List.mem_takeWhile_imp hb'
    simp only [] at hpb
    exact (overlapsI_true_iff (hwfB b hb).2 hI.2).mp hpb
  have notlessR : ∀ y ∈ phaseR iset I, I.1 ≤ y.2 + 1 := by
    intro y hy
    rcases hcase : phaseR iset I with _ | ⟨hd, tl⟩
    · rw [hcase] at hy; simp at hy
    · have hdfalse : less_no_overlap hd I = false :=
        head_dropWhile_false _ iset hd tl hcase
      have hdwf : IWF hd := hwfR hd (by rw [hcase]; exact List.mem_cons_self hd tl)
      have hdle : I.1 ≤ hd.2 + 1 := (lno_false_iff hdwf.2).mp hdfalse
      rw [hcase] at hy
      rcases List.mem_cons.mp hy with h | h
      · subst h; exact hdle
      · have hrel : hd.2 + 1 < y.1 := by
          have := pairR
          rw [hcase] at this
          exact (List.pairwise_cons.mp this).1 y h
        have hywf : IWF y := hwfR y (by rw [hcase]; exact List.mem_cons_of_mem hd h)
        have := hywf.1
        omega
  have memC : ∀ c ∈ phaseC iset I, I.2 + 1 < c.1 := by
    intro c hcmem
    rcases hcase : phaseC iset I with _ | ⟨hd, tl⟩
    · rw [hcase] at hcmem; simp at hcmem
    · have hdfalse : overlapsI hd I = false :=
        head_dropWhile_false _ (phaseR iset I) hd tl hcase
      have hdR : hd ∈ phaseR iset I := hsubC.mem (by rw [hcase]; exact List.mem_cons_self hd tl)
      have hdwf : IWF hd := hwfR hd hdR
      have hdnl : I.1 ≤ hd.2 + 1 := notlessR hd hdR
      have hdgt : I.2 + 1 < hd.1 := by
        by_contra hcon
        have : overlapsI hd I = true := (overlapsI_true_iff hdwf.2 hI.2).mpr ⟨hdnl, by omega⟩
        rw [hdfalse] at this; cases this
      rw [hcase] at hcmem
      rcases List.mem_cons.mp hcmem with h | h
      · subst h; exact hdgt
      · have hrel : hd.2 + 1 < c.1 := by
          have := pairC
          rw [hcase] at this
          exact (List.pairwise_cons.mp this).1 c h
        have := hdwf.1
        omega
  have crossAR : ∀ a ∈ phaseA iset I, ∀ r ∈ phaseR iset I, a.2 + 1 < r.1 := by
    have := hpair
    rw [← hsplit1] at this
    exact (List.pairwise_append.mp this).2.2
  have crossBC : ∀ b ∈ phaseB iset I, ∀ c ∈ phaseC iset I, b.2 + 1 < c.1 := by
    have := pairR
    rw [← hsplit2] at this
    exact (List.pairwise_append.mp this).2.2
  have hwfM : IWF ((phaseB iset I).foldl mergeI I) :=
    foldl_mergeI_wf _ I hI hwfB
  have MlowA : ∀ a ∈ phaseA iset I, a.2 + 1 < ((phaseB iset I).foldl mergeI I).1 := by
    intro a ha
    exact foldl_mergeI_lower_lt (a.2 + 1) _ I (memA a ha)
      (fun b hb => crossAR a ha b (hsubB.mem hb))
  have MhiC : ∀ c ∈ phaseC iset I, ((phaseB iset I).foldl mergeI I).2 + 1 < c.1 := by
    intro c hcm
    exact foldl_mergeI_upper_lt c.1 _ I (memC c hcm) (fun b hb => crossBC b hb c hcm)
  rw [merge_insert_eq]
  constructor
  · constructor
    · rw [List.pairwise_append]
      refine ⟨?_, pairC, ?_⟩
      · rw [List.pairwise_append]
        refine ⟨pairA, List.pairwise_singleton _ _, ?_⟩
        intro a ha m hm
        rw [List.mem_singleton] at hm
        subst hm
        exact MlowA a ha
      · intro x hx c hcm
        rcases List.mem_append.mp hx with h | h
        · exact crossAR x h c (hsubC.mem hcm)
        · rw [List.mem_singleton] at h
          subst h
          exact MhiC c hcm
    · intro x hx
      rcases List.mem_append.mp hx with h | h
      · rcases List.mem_append.mp h with h' | h'
        · exact hwfA x h'
        · rw [List.mem_singleton] at h'; subst h'; exact hwfM
      · exact hwfC x h
  · intro v
    have hM : imem v ((phaseB iset I).foldl mergeI I) ↔
        (imem v I ∨ ∃ b ∈ phaseB iset I, imem v b) :=
      foldl_mergeI_union I _ I hI (fun b hb => ⟨hwfB b hb, memB b hb⟩)
        (le_refl _) (le_refl _) v
    constructor
    · rintro ⟨x, hx, hxm⟩
      rcases List.mem_append.mp hx with h | h
      · rcases List.mem_append.mp h with h' | h'
        · exact Or.inl ⟨x, (hsplit1 ▸ List.mem_append_left _ h'), hxm⟩
        · rw [List.mem_singleton] at h'
          subst h'
          rcases hM.mp hxm with h'' | ⟨b, hb, hbm⟩
          · exact Or.inr h''
          · refine Or.inl ⟨b, ?_, hbm⟩
            have : b ∈ phaseR iset I := hsubB.mem hb
            exact hsplit1 ▸ List.mem_append_right _ this
      · refine Or.inl ⟨x, ?_, hxm⟩
        have : x ∈ phaseR iset I := hsubC.mem h
        exact hsplit1 ▸ List.mem_append_right _ this
    · rintro (⟨x, hx, hxm⟩ | hvI)
      · rw [← hsplit1] at hx
        rcases List.mem_append.mp hx with h | h
        · exact ⟨x, List.mem_append_left _ (List.mem_append_left _ h), hxm⟩
        · rw [← hsplit2] at h
          rcases List.mem_append.mp h with h' | h'
          · refine ⟨(phaseB iset I).foldl mergeI I,
              List.mem_append_left _ (List.mem_append_right _ (List.mem_singleton_self _)), ?_⟩
            exact hM.mpr (Or.inr ⟨x, h', hxm⟩)
          · exact ⟨x, List.mem_append_right _ h', hxm⟩
      · refine ⟨(phaseB iset I).foldl mergeI I,
          List.mem_append_left _ (List.mem_append_right _ (List.mem_singleton_self _)), ?_⟩
        exact hM.mpr (Or.inl hvI)

lemma rLower_toRangeI (x : IInterval) : rLower (toRangeI x) = x.1 := by
  by_cases h : x.1 = x.2 <;> simp [toRangeI, h, rLower]

lemma rUpper_toRangeI (x : IInterval) : rUpper (toRangeI x) = x.2 := by
  by_cases h : x.1 = x.2 <;> simp [toRangeI, h, rUpper]

lemma rmem_toRangeI (x : IInterval) (v : Nat) : (toRangeI x).rmem v ↔ imem v x := by
  by_cases h : x.1 = x.2
  · simp only [toRangeI, h, if_pos, Range.rmem, imem]
    omega
  · simp [toRangeI, h, Range.rmem, imem]

lemma msr_go_all : ∀ (rs : List Range) (iset : List IInterval),
    Range.All ∈ rs → msr_go rs iset = [Range.All] := by
  intro rs
  induction rs with
  | nil => intro iset h; simp at h
  | cons r rest ih =>
      intro iset h
      rcases r with ⟨l, u⟩ | v | _
      · have : Range.All ∈ rest := by
          rcases List.mem_cons.mp h with h' | h'
          · cases h'
          · exact h'
        exact ih _ this
      · have : Range.All ∈ rest := by
          rcases List.mem_cons.mp h with h' | h'
          · cases h'
          · exact h'
        exact ih _ this
      · rfl

lemma msr_go_spec : ∀ (rs : List Range) (iset : List IInterval),
    (∀ r ∈ rs, ValidRange r) → Range.All ∉ rs → CanonI iset →
    ∃ iset', msr_go rs iset = iset'.map toRangeI ∧ CanonI iset' ∧
      (∀ v, (∃ x ∈ iset', imem v x) ↔ ((∃ x ∈ iset, imem v x) ∨ ∃ r ∈ rs, r.rmem v)) := by
  intro rs
  induction rs with
  | nil =>
      intro iset _ _ hc
      exact ⟨iset, rfl, hc, fun v => by simp⟩
  | cons r rest ih =>
      intro iset hval hnall hc
      have hvr := hval r (List.mem_cons_self r rest)
      have hval' : ∀ x ∈ rest, ValidRange x := fun x hx => hval x (List.mem_cons_of_mem r hx)
      have hnall' : Range.All ∉ rest := fun h => hnall (List.mem_cons_of_mem r h)
      rcases r with ⟨l, u⟩ | v | _
      · obtain ⟨h1, h2, h3⟩ := hvr
        have hwfI : IWF (l, u) := ⟨Nat.le_of_lt h2, h3⟩
        obtain ⟨hcan, huni⟩ := merge_insert_spec iset (l, u) hc hwfI
        obtain ⟨iset', heq, hc', hu'⟩ := ih (merge_insert iset (l, u)) hval' hnall' hcan
        refine ⟨iset', heq, hc', fun v => ?_⟩
        rw [hu' v, huni v]
        simp only [List.mem_cons]
        constructor
        · rintro ((h | h) | ⟨x, hx, hm⟩)
          · exact Or.inl h
          · exact Or.inr ⟨Range.Interval l u, Or.inl rfl, by simpa [Range.rmem, imem] using h⟩
          · exact Or.inr ⟨x, Or.inr hx, hm⟩
        · rintro (h | ⟨x, hx | hx, hm⟩)
          · exact Or.inl (Or.inl h)
          · subst hx; exact Or.inl (Or.inr (by simpa [Range.rmem, imem] using hm))
          · exact Or.inr ⟨x, hx, hm⟩
      · obtain ⟨h1, h2⟩ := hvr
        have hwfI : IWF (v, v) := ⟨le_refl _, h2⟩
        obtain ⟨hcan, huni⟩ := merge_insert_spec iset (v, v) hc hwfI
        obtain ⟨iset', heq, hc', hu'⟩ := ih (merge_insert iset (v, v)) hval' hnall' hcan
        refine ⟨iset', heq, hc', fun w => ?_⟩
        rw [hu' w, huni w]
        simp only [List.mem_cons]
        constructor
        · rintro ((h | h) | ⟨x, hx, hm⟩)
          · exact Or.inl h
          · refine Or.inr ⟨Range.Point v, Or.inl rfl, ?_⟩
            simp only [imem] at h
            simp only [Range.rmem]
            omega
          · exact Or.inr ⟨x, Or.inr hx, hm⟩
        · rintro (h | ⟨x, hx | hx, hm⟩)
          · exact Or.inl (Or.inl h)
          · subst hx
            refine Or.inl (Or.inr ?_)
            simp only [Range.rmem] at hm
            simp only [imem]
            omega
          · exact Or.inr ⟨x, hx, hm⟩
      · exact absurd (List.mem_cons_self _ _) hnall

lemma merge_insert_extend (acc : List IInterval) (x : IInterval)
    (hc : CanonI (acc ++ [x])) : merge_insert acc x = acc ++ [x] := by
  obtain ⟨hpair, hwf⟩ := hc
  have hcross : ∀ a ∈ acc, a.2 + 1 < x.1 := by
    intro a ha
    have := (List.pairwise_append.mp hpair).2.2 a ha x (List.mem_singleton_self x)
    exact this
  have hwfacc : ∀ a ∈ acc, IWF a := fun a ha => hwf a (List.mem_append_left _ ha)
  have hall : ∀ a ∈ acc, less_no_overlap a x = true := by
    intro a ha
    exact (lno_true_iff (hwfacc a ha).2).mpr (hcross a ha)
  rw [merge_insert_eq]
  have hA : phaseA acc x = acc := by
    simp only [phaseA]
    exact takeWhile_eq_self_of_all _ acc hall
  have hR : phaseR acc x = [] := by
    simp only [phaseR]
    exact dropWhile_eq_nil_of_all _ acc hall
  have hB : phaseB acc x = [] := by simp [phaseB, hR]
  have hC : phaseC acc x = [] := by simp [phaseC, hR]
  rw [hA, hB, hC]
  simp

lemma msr_go_reinsert : ∀ (xs acc : List IInterval), CanonI (acc ++ xs) →
    msr_go (xs.map toRangeI) acc = (acc ++ xs).map toRangeI := by
  intro xs
  induction xs with
  | nil => intro acc _; simp [msr_go]
  | cons x xs ih =>
      intro acc hc
      have hstep : merge_insert acc x = acc ++ [x] := by
        apply merge_insert_extend
        constructor
        · refine (hc.1.sublist ?_)
          have : List.Sublist (acc ++ [x]) (acc ++ x :: xs) :=
            List.Sublist.append_left (by simp) acc
          exact this
        · intro y hy
          refine hc.2 y ?_
          rcases List.mem_append.mp hy with h | h
          · exact List.mem_append_left _ h
          · rw [List.mem_singleton] at h
            subst h
            exact List.mem_append_right _ (List.mem_cons_self _ _)
      have hc' : CanonI ((acc ++ [x]) ++ xs) := by
        rw [List.append_assoc]
        simpa using hc
      have tail_eq : msr_go (List.map toRangeI xs) (acc ++ [x]) = ((acc ++ [x]) ++ xs).map toRangeI :=
        ih (acc ++ [x]) hc'
      by_cases h : x.1 = x.2
      · have hx : toRangeI x = Range.Point x.1 := by simp [toRangeI, h]
        have hxpair : (x.1, x.1) = x := by
          cases x
          simp_all
        calc msr_go (List.map toRangeI (x :: xs)) acc
            = msr_go (Range.Point x.1 :: List.map toRangeI xs) acc := by rw [List.map_cons, hx]
          _ = msr_go (List.map toRangeI xs) (merge_insert acc (x.1, x.1)) := rfl
          _ = msr_go (List.map toRangeI xs) (acc ++ [x]) := by rw [hxpair, hstep]
          _ = ((acc ++ [x]) ++ xs).map toRangeI := tail_eq
          _ = (acc ++ x :: xs).map toRangeI := by rw [List.append_assoc]; simp
      · have hx : toRangeI x = Range.Interval x.1 x.2 := by simp [toRangeI, h]
        have hxpair : (x.1, x.2) = x := rfl
        calc msr_go (List.map toRangeI (x :: xs)) acc
            = msr_go (Range.Interval x.1 x.2 :: List.map toRangeI xs) acc := by rw [List.map_cons, hx]
          _ = msr_go (List.map toRangeI xs) (merge_insert acc (x.1, x.2)) := rfl
          _ = msr_go (List.map toRangeI xs) (acc ++ [x]) := by rw [hxpair, hstep]
          _ = ((acc ++ [x]) ++ xs).map toRangeI := tail_eq
          _ = (acc ++ x :: xs).map toRangeI := by rw [List.append_assoc]; simp

/-! ## Claim C2 — statement, counterexample and witness -/

/-- C2 (counterexample): the claim fails as stated for arbitrary inputs.
(i) With the ordinary, `Range::interval`-constructible ranges
`[5, 2^64-1]` and `[1, 2]`, the `upper + 1` in `less_no_overlap` wraps at
`u64` width, and the output is not sorted by lower bound.
(ii) With input `[All, Point 0]` the output is `[All]` but the union is
not preserved: `0` is in the input's union and not in the output's.
(iii) With an `interval_unchecked`-style inverted interval `[4, 0]` and
`Point 3`, the output is also unsorted. -/
theorem c2_counterexample :
    (Range.interval 5 (2 ^ 64 - 1) = some (Range.Interval 5 (2 ^ 64 - 1))
      ∧ ¬ (merge_and_sort_ranges [Range.Interval 5 (2 ^ 64 - 1), Range.Interval 1 2]).Pairwise
            (fun a b => rLower a < rLower b))
    ∧ (merge_and_sort_ranges [Range.All, Range.Point 0] = [Range.All]
      ∧ ¬ ((∃ r ∈ merge_and_sort_ranges [Range.All, Range.Point 0], r.rmem 0) ↔
            (∃ r ∈ [Range.All, Range.Point 0], r.rmem 0)))
    ∧ ¬ (merge_and_sort_ranges [Range.Interval 4 0, Range.Point 3]).Pairwise
          (fun a b => rLower a < rLower b) := by
  refine ⟨⟨by decide, ?_⟩, ⟨by decide, by decide⟩, ?_⟩ <;> decide

/-- C2 (amended): for every input sequence of **valid** ranges — interval
bounds ordered, all bounds nonzero `u64` values whose successor does not
overflow — `merge_and_sort_ranges` returns ranges sorted by lower bound,
pairwise disjoint and non-adjacent, whose union equals the input's union;
any `All` in the input short-circuits to `[All]`; `lower == upper` results
are emitted as `Point` (no degenerate `Interval` appears); and the function
is idempotent on its own output. -/
theorem c2_merge_and_sort_ranges_amended (ranges : List Range)
    (hval : ∀ r ∈ ranges, ValidRange r) :
    (Range.All ∈ ranges → merge_and_sort_ranges ranges = [Range.All])
    ∧ (merge_and_sort_ranges ranges).Pairwise (fun a b => rLower a < rLower b)
    ∧ (merge_and_sort_ranges ranges).Pairwise (fun a b => rUpper a + 1 < rLower b)
    ∧ (∀ v, (∃ r ∈ merge_and_sort_ranges ranges, r.rmem v) ↔ (∃ r ∈ ranges, r.rmem v))
    ∧ (∀ l u, Range.Interval l u ∈ merge_and_sort_ranges ranges → l < u)
    ∧ merge_and_sort_ranges (merge_and_sort_ranges ranges) = merge_and_sort_ranges ranges := by
  by_cases hall : Range.All ∈ ranges
  · have hout : merge_and_sort_ranges ranges = [Range.All] := msr_go_all ranges [] hall
    rw [hout]
    refine ⟨fun _ => rfl, List.pairwise_singleton _ _, List.pairwise_singleton _ _, ?_, ?_, rfl⟩
    · intro v
      constructor
      · rintro ⟨r, hr, hm⟩
        rw [List.mem_singleton] at hr
        subst hr
        exact ⟨Range.All, hall, hm⟩
      · rintro ⟨r, hr, hm⟩
        refine ⟨Range.All, List.mem_singleton_self _, ?_⟩
        have hv := hval r hr
        rcases r with ⟨l, u⟩ | p | _
        · simp only [ValidRange] at hv
          simp only [Range.rmem] at hm ⊢
          omega
        · simp only [ValidRange] at hv
          simp only [Range.rmem] at hm ⊢
          omega
        · simpa [Range.rmem] using hm
    · intro l u h
      rw [List.mem_singleton] at h
      simp at h
  · have hcnil : CanonI ([] : List IInterval) := by
      constructor
      · exact List.Pairwise.nil
      · simp
    obtain ⟨iset', heq, hcan', huni⟩ := msr_go_spec ranges [] hval hall hcnil
    obtain ⟨hpair, hwf⟩ := hcan'
    have hout : merge_and_sort_ranges ranges = iset'.map toRangeI := heq
    rw [hout]
    refine ⟨fun h => absurd h hall, ?_, ?_, ?_, ?_, ?_⟩
    · rw [List.pairwise_map]
      refine hpair.imp_of_mem ?_
      intro a b ha hb hab
      rw [rLower_toRangeI, rLower_toRangeI]
      have := (hwf a ha).1
      omega
    · rw [List.pairwise_map]
      refine hpair.imp_of_mem ?_
      intro a b _ _ hab
      rw [rLower_toRangeI, rUpper_toRangeI]
      omega
    · intro v
      have h1 := huni v
      simp only [List.not_mem_nil, false_and, exists_false, false_or] at h1
      rw [← h1]
      constructor
      · rintro ⟨r, hr, hm⟩
        obtain ⟨x, hx, hxr⟩ := List.mem_map.mp hr
        exact ⟨x, hx, (rmem_toRangeI x v).mp (hxr ▸ hm)⟩
      · rintro ⟨x, hx, hm⟩
        exact ⟨toRangeI x, List.mem_map_of_mem _ hx, (rmem_toRangeI x v).mpr hm⟩
    · intro l u h
      obtain ⟨x, hx, hxr⟩ := List.mem_map.mp h
      by_cases hx12 : x.1 = x.2
      · simp [toRangeI, hx12] at hxr
      · simp only [toRangeI, if_neg hx12] at hxr
        cases hxr
        have := (hwf x hx).1
        omega
    · have hcan2 : CanonI ([] ++ iset') := by
        rw [List.nil_append]
        constructor
        · exact hpair
        · exact hwf
      have := msr_go_reinsert iset' [] hcan2
      simpa [merge_and_sort_ranges] using this

/-- C2 (witness): the amended theorem applied at a concrete valid input. -/
theorem c2_merge_and_sort_ranges_witness :
    (Range.All ∈ [Range.Point 5, Range.Interval 1 3] →
      merge_and_sort_ranges [Range.Point 5, Range.Interval 1 3] = [Range.All])
    ∧ (merge_and_sort_ranges [Range.Point 5, Range.Interval 1 3]).Pairwise
        (fun a b => rLower a < rLower b)
    ∧ (merge_and_sort_ranges [Range.Point 5, Range.Interval 1 3]).Pairwise
        (fun a b => rUpper a + 1 < rLower b)
    ∧ (∀ v, (∃ r ∈ merge_and_sort_ranges [Range.Point 5, Range.Interval 1 3], r.rmem v) ↔
        (∃ r ∈ [Range.Point 5, Range.Interval 1 3], r.rmem v))
    ∧ (∀ l u, Range.Interval l u ∈ merge_and_sort_ranges [Range.Point 5, Range.Interval 1 3] →
        l < u)
    ∧ merge_and_sort_ranges (merge_and_sort_ranges [Range.Point 5, Range.Interval 1 3])
        = merge_and_sort_ranges [Range.Point 5, Range.Interval 1 3] :=
  c2_merge_and_sort_ranges_amended [Range.Point 5, Range.Interval 1 3] (by decide)

/-! ## Claim C3 — per-requirement encoding -/

lemma toRangeI_ne_all (x : IInterval) : toRangeI x ≠ Range.All := by
  by_cases h : x.1 = x.2 <;> simp [toRangeI, h]

lemma msr_go_shape : ∀ (rs : List Range) (iset : List IInterval),
    Range.All ∉ rs → ∃ iset' : List IInterval, msr_go rs iset = iset'.map toRangeI := by
  intro rs
  induction rs with
  | nil => intro iset _; exact ⟨iset, rfl⟩
  | cons r rest ih =>
      intro iset hna
      have hna' : Range.All ∉ rest := fun h => hna (List.mem_cons_of_mem r h)
      rcases r with ⟨l, u⟩ | v | _
      · exact ih _ hna'
      · exact ih _ hna'
      · exact absurd (List.mem_cons_self _ _) hna

lemma all_not_mem_msr (rs : List Range) (hna : Range.All ∉ rs) :
    Range.All ∉ merge_and_sort_ranges rs := by
  obtain ⟨iset', heq⟩ := msr_go_shape rs [] hna
  rw [merge_and_sort_ranges, heq]
  intro h
  obtain ⟨x, _, hx⟩ := List.mem_map.mp h
  exact toRangeI_ne_all x hx

/-- Evaluation of the loop's SMT accumulator: folding the canonical ranges
disjoins their `enc` semantics onto the accumulator. -/
lemma req_loop_c_sem (P : Nat) :
    ∀ (rs : List Range), Range.All ∉ rs → ∀ (c : SBool) (m : Expr) (σ : Nat → Nat),
      (req_loop P c m rs).1.evalB σ = (c.evalB σ || rs.any (fun r => decide (r.rmem (σ P)))) := by
  intro rs
  induction rs with
  | nil => intro _ c m σ; simp [req_loop]
  | cons r rest ih =>
      intro hna c m σ
      have hna' : Range.All ∉ rest := fun h => hna (List.mem_cons_of_mem r h)
      rcases r with ⟨l, u⟩ | v | _
      · rw [req_loop, ih hna']
        simp [SBool.evalB, Range.rmem, List.any_cons, Bool.or_assoc]
      · rw [req_loop, ih hna']
        have hbd : (σ P == v) = decide (σ P = v) := by
          by_cases h : σ P = v <;> simp [h]
        simp [SBool.evalB, Range.rmem, List.any_cons, Bool.or_assoc, hbd]
      · exact absurd (List.mem_cons_self _ _) hna

/-- The mirror accumulator evaluates exactly like the SMT accumulator. -/
lemma req_loop_m_sem (P : Nat) :
    ∀ (rs : List Range), Range.All ∉ rs → ∀ (c : SBool) (m : Expr),
      (∀ σ, m.evalB σ = c.evalB σ) → (m = Expr.Bot → ∀ σ, c.evalB σ = false) →
      ∀ σ, (req_loop P c m rs).2.evalB σ = (req_loop P c m rs).1.evalB σ := by
  intro rs
  induction rs with
  | nil => intro _ c m hm _ σ; exact hm σ
  | cons r rest ih =>
      intro hna c m hm hbot σ
      have hna' : Range.All ∉ rest := fun h => hna (List.mem_cons_of_mem r h)
      rcases r with ⟨l, u⟩ | v | _
      · rw [req_loop]
        by_cases h : m = Expr.Bot
        · rw [if_pos h]
          refine ih hna' _ _ ?_ (by intro hc; cases hc) σ
          intro τ
          simp [Expr.evalB, SBool.evalB, Expr.and, AtomicExpr.ver_ge, AtomicExpr.ver_le,
            hbot h τ]
        · rw [if_neg h]
          refine ih hna' _ _ ?_ (by intro hc; cases hc) σ
          intro τ
          simp [Expr.evalB, SBool.evalB, Expr.or, Expr.and, AtomicExpr.ver_ge,
            AtomicExpr.ver_le, hm τ, Bool.or_comm]
      · rw [req_loop]
        by_cases h : m = Expr.Bot
        · rw [if_pos h]
          refine ih hna' _ _ ?_ (by intro hc; cases hc) σ
          intro τ
          simp [Expr.evalB, SBool.evalB, AtomicExpr.ver_eq, hbot h τ]
        · rw [if_neg h]
          refine ih hna' _ _ ?_ (by intro hc; cases hc) σ
          intro τ
          simp [Expr.evalB, SBool.evalB, Expr.or, AtomicExpr.ver_eq, hm τ, Bool.or_comm]
      · exact absurd (List.mem_cons_self _ _) hna

/-- The SMT side of a requirement pair evaluates true exactly when the
package's version variable lies in some canonical range. -/
lemma constraint_pair_c_iff (req : Requirement) (σ : Nat → Nat) :
    req.constraint_pair.1.evalB σ = true ↔
      ∃ r ∈ merge_and_sort_ranges req.versions, r.rmem (σ req.package) := by
  by_cases hall : Range.All ∈ req.versions
  · have hmsr : merge_and_sort_ranges req.versions = [Range.All] :=
      msr_go_all req.versions [] hall
    rw [Requirement.constraint_pair, hmsr]
    simp [req_loop, SBool.evalB, Range.rmem, AtomicExpr.ver_eq]
  · have hna := all_not_mem_msr req.versions hall
    rw [Requirement.constraint_pair,
      req_loop_c_sem req.package (merge_and_sort_ranges req.versions) hna
        SBool.bfalse Expr.bot σ]
    simp [SBool.evalB, List.any_eq_true]

/-- The mirror of a requirement pair evaluates exactly like its SMT side. -/
lemma constraint_pair_eval (req : Requirement) (σ : Nat → Nat) :
    req.constraint_pair.2.evalB σ = req.constraint_pair.1.evalB σ := by
  by_cases hall : Range.All ∈ req.versions
  · have hmsr : merge_and_sort_ranges req.versions = [Range.All] :=
      msr_go_all req.versions [] hall
    rw [Requirement.constraint_pair, hmsr]
    simp [req_loop, SBool.evalB, Expr.evalB, Expr.not, AtomicExpr.ver_eq]
  · have hna := all_not_mem_msr req.versions hall
    exact req_loop_m_sem req.package (merge_and_sort_ranges req.versions) hna
      SBool.bfalse Expr.bot (fun τ => rfl) (fun _ τ => rfl) σ

/-- The pair emitted for an `All` requirement. -/
lemma constraint_pair_all (req : Requirement) (hall : Range.All ∈ req.versions) :
    req.constraint_pair.1 = SBool.bnot (SBool.beq req.package 0)
    ∧ req.constraint_pair.2 = Expr.Not (Expr.Atom (AtomicExpr.VerEq req.package 0)) := by
  have hmsr : merge_and_sort_ranges req.versions = [Range.All] :=
    msr_go_all req.versions [] hall
  rw [Requirement.constraint_pair, hmsr]
  constructor <;> rfl

/-- C3: for every requirement `R` on package `P`, the encoder emits exactly
one `(constraint, mirror)` pair; the SMT side is logically equivalent to
`OR_i enc(ri)` over the canonical ranges (`enc(Point v) = (V_P == v)`,
`enc([l,u]) = (V_P >= l) AND (V_P <= u)`, `enc(All) = (V_P != 0)`, which is
exactly range membership of `V_P`); the mirror evaluates equivalently under
the natural reading of its atoms; and when the requirement mentions `All`
the pair is `(NOT (V_P == 0), Not(VerEq{P,0}))`. -/
theorem c3_requirement_encoding (req : Requirement) :
    req.add_constraints.length = 1
    ∧ req.add_constraints = [req.constraint_pair]
    ∧ (∀ σ : Nat → Nat, req.constraint_pair.1.evalB σ = true ↔
        ∃ r ∈ merge_and_sort_ranges req.versions, r.rmem (σ req.package))
    ∧ (∀ σ : Nat → Nat, req.constraint_pair.2.evalB σ = req.constraint_pair.1.evalB σ)
    ∧ (Range.All ∈ req.versions →
        req.constraint_pair.1 = SBool.bnot (SBool.beq req.package 0)
        ∧ req.constraint_pair.2 = Expr.Not (Expr.Atom (AtomicExpr.VerEq req.package 0))) :=
  ⟨rfl, rfl, constraint_pair_c_iff req, constraint_pair_eval req, constraint_pair_all req⟩

/-! ## Claim C4 — package encoding order -/

def pvDefault : PackageVer := { requirements := { dependencies := [], conflicts := [] } }

/-- The implication wrapper the package encoder applies to a version's
requirement pair. -/
def implyWrap (pid k : Nat) (cm : SBool × Expr) : SBool × Expr :=
  (SBool.bimp (SBool.beq pid k) cm.1,
   Expr.implies (Expr.Atom (AtomicExpr.ver_eq pid k)) cm.2)

/-- The per-version blocks of the package encoder, in version order. -/
def versionBlocks (pid : Nat) : Nat → List PackageVer → List (List (SBool × Expr))
  | _, [] => []
  | n, v :: vs =>
      (v.requirements.add_constraints).map (implyWrap pid (n + 1))
        :: versionBlocks pid (n + 1) vs

/-- Characterisation of the version loop of `Package::add_constraints`. -/
lemma package_foldl_shape (pid : Nat) :
    ∀ (vs : List PackageVer) (acc : List (SBool × Expr)) (n : Nat),
      (vs.foldl
        (fun (acc : List (SBool × Expr) × Nat) ver =>
          let ver_counter := acc.2 + 1
          (acc.1 ++ (ver.requirements.add_constraints).map
            (fun cm =>
              (SBool.bimp (SBool.beq pid ver_counter) cm.1,
               Expr.implies (Expr.Atom (AtomicExpr.ver_eq pid ver_counter)) cm.2)),
           ver_counter))
        (acc, n)) =
      (acc ++ (versionBlocks pid n vs).flatten, n + vs.length) := by
  intro vs
  induction vs with
  | nil => intro acc n; simp [versionBlocks]
  | cons v vs ih =>
      intro acc n
      rw [List.foldl_cons, ih]
      simp only [versionBlocks, List.flatten_cons, List.length_cons, Prod.mk.injEq]
      constructor
      · rw [List.append_assoc]
        rfl
      · omega

/-- The per-version blocks, indexed: block `i` (0-based) wraps version
`i + 1`'s requirement pairs. -/
lemma versionBlocks_eq_range (pid : Nat) :
    ∀ (vs : List PackageVer) (n : Nat),
      versionBlocks pid n vs = (List.range vs.length).map (fun i =>
        ((vs.getD i pvDefault).requirements.add_constraints).map
          (implyWrap pid (n + i + 1))) := by
  intro vs
  induction vs with
  | nil => intro n; simp [versionBlocks]
  | cons v vs ih =>
      intro n
      rw [versionBlocks, ih (n + 1)]
      simp only [List.length_cons]
      rw [List.range_succ_eq_map]
      simp only [List.map_cons, List.map_map]
      congr 1
      apply List.map_congr_left
      intro i _
      have harith : n + 1 + i + 1 = n + (i + 1) + 1 := by omega
      simp [Function.comp_apply, List.getD_cons_succ, harith]

/-- The spec-shaped characterisation of `Package::add_constraints`: ground
lower bound first, then each version's wrapped pairs in ascending ordinal,
then the ground upper bound. -/
lemma package_add_constraints_shape (p : Package) :
    Package.add_constraints p =
      [(SBool.bge p.id 0, Expr.Atom (AtomicExpr.ver_ge p.id 0))]
      ++ ((List.range p.versions.length).map (fun i =>
            ((p.versions.getD i pvDefault).requirements.add_constraints).map
              (implyWrap p.id (i + 1)))).flatten
      ++ [(SBool.ble p.id p.versions.length,
            Expr.Atom (AtomicExpr.ver_le p.id p.versions.length))] := by
  rw [Package.add_constraints]
  rw [package_foldl_shape p.id p.versions
    [(SBool.bge p.id 0, Expr.Atom (AtomicExpr.ver_ge p.id 0))] 0]
  rw [versionBlocks_eq_range p.id p.versions 0]
  simp only [Nat.zero_add, List.append_assoc]

/-- C4: for every package `P` with version count `N`, the encoder emits, in
this order: the ground bound pair `(V_P ≥ 0, VerGE{P,0})`; then for each
version `v ∈ 1..=N`, every pair of the version's requirement-set encoding
wrapped as `((V_P == v) ⇒ c, VerEq{P,v} → m)`; and finally the upper bound
pair `(V_P ≤ N, VerLE{P,N})`. -/
theorem c4_package_encoding (p : Package) :
    Package.add_constraints p =
      [(SBool.bge p.id 0, Expr.Atom (AtomicExpr.ver_ge p.id 0))]
      ++ ((List.range p.versions.length).map (fun i =>
            ((p.versions.getD i pvDefault).requirements.add_constraints).map
              (implyWrap p.id (i + 1)))).flatten
      ++ [(SBool.ble p.id p.versions.length,
            Expr.Atom (AtomicExpr.ver_le p.id p.versions.length))] :=
  package_add_constraints_shape p

/-! ## Claim C7 — deterministic emission order -/

def getPkgD (repo : Repository) (pid : Nat) : Package :=
  (repo.get_package pid).getD { id := 0, versions := [] }

lemma mapM_pkgs (repo : Repository) :
    ∀ pids : List Nat, (∀ p ∈ pids, p < repo.packages.length) →
      pids.mapM (fun pid => (repo.get_package pid).map Package.add_constraints)
        = some (pids.map (fun pid => (getPkgD repo pid).add_constraints)) := by
  intro pids
  induction pids with
  | nil => intro _; rfl
  | cons p pids ih =>
      intro hb
      have hp : p < repo.packages.length := hb p (List.mem_cons_self p pids)
      have hpkg : repo.get_package p = some (repo.packages.get ⟨p, hp⟩) := by
        simp [Repository.get_package, List.get?_eq_get hp]
      rw [List.mapM_cons, hpkg, ih (fun x hx => hb x (List.mem_cons_of_mem p hx))]
      simp [getPkgD, hpkg]

lemma add_all_constraints_eq (repo : Repository) (pids : List Nat)
    (reqs : RequirementSet) (hb : ∀ p ∈ pids, p < repo.packages.length) :
    add_all_constraints repo pids reqs =
      some ((pids.map (fun pid => (getPkgD repo pid).add_constraints)).flatten
        ++ reqs.add_constraints) := by
  rw [add_all_constraints, mapM_pkgs repo pids hb]
  rfl

/-- C7: for in-bounds closure ids iterated in ascending `PackageId` order
(the spec's reading of the dense-bitset iteration), the emitted sequence of
`(constraint, mirror)` pairs is exactly: for each package in that ascending
order, its block — ground lower bound, versions in ascending ordinal,
ground upper bound — followed by the top-level requirement set encoded
last, dependencies before conflicts.  The encoding is a pure function of
`(repo, pids, reqs)`, hence deterministic. -/
theorem c7_emission_order (repo : Repository) (pids : List Nat)
    (reqs : RequirementSet)
    (hb : ∀ p ∈ pids, p < repo.packages.length)
    (_hsorted : List.Pairwise (· < ·) pids) :
    add_all_constraints repo pids reqs =
      some ((pids.map (fun pid => (getPkgD repo pid).add_constraints)).flatten
        ++ (reqs.dependencies.map Requirement.constraint_pair
            ++ reqs.conflicts.map Requirement.conflict_pair))
    ∧ (∀ pid ∈ pids, (getPkgD repo pid).add_constraints =
        [(SBool.bge (getPkgD repo pid).id 0,
          Expr.Atom (AtomicExpr.ver_ge (getPkgD repo pid).id 0))]
        ++ ((List.range (getPkgD repo pid).versions.length).map (fun i =>
              (((getPkgD repo pid).versions.getD i pvDefault).requirements.add_constraints).map
                (implyWrap (getPkgD repo pid).id (i + 1)))).flatten
        ++ [(SBool.ble (getPkgD repo pid).id (getPkgD repo pid).versions.length,
              Expr.Atom (AtomicExpr.ver_le (getPkgD repo pid).id
                (getPkgD repo pid).versions.length))])
    ∧ (∀ rs : RequirementSet, rs.add_constraints =
        rs.dependencies.map Requirement.constraint_pair
          ++ rs.conflicts.map Requirement.conflict_pair) := by
  refine ⟨add_all_constraints_eq repo pids reqs hb, ?_, fun rs => rfl⟩
  intro pid _
  exact package_add_constraints_shape (getPkgD repo pid)

/-- C7 (witness): the order theorem applied at a concrete repository with a
sorted in-bounds closure. -/
theorem c7_emission_order_witness :
    (add_all_constraints { packages := [{ id := 0, versions := [pvDefault] }] } [0]
        { dependencies := [], conflicts := [] } =
      some ((([0] : List Nat).map (fun pid =>
          (getPkgD { packages := [{ id := 0, versions := [pvDefault] }] } pid).add_constraints)).flatten
        ++ (([] : List Requirement).map Requirement.constraint_pair
            ++ ([] : List Requirement).map Requirement.conflict_pair)))
    ∧ (∀ pid ∈ ([0] : List Nat),
        (getPkgD { packages := [{ id := 0, versions := [pvDefault] }] } pid).add_constraints =
        [(SBool.bge (getPkgD { packages := [{ id := 0, versions := [pvDefault] }] } pid).id 0,
          Expr.Atom (AtomicExpr.ver_ge
            (getPkgD { packages := [{ id := 0, versions := [pvDefault] }] } pid).id 0))]
        ++ ((List.range
              (getPkgD { packages := [{ id := 0, versions := [pvDefault] }] } pid).versions.length).map
            (fun i =>
              (((getPkgD { packages := [{ id := 0, versions := [pvDefault] }] } pid).versions.getD
                  i pvDefault).requirements.add_constraints).map
                (implyWrap (getPkgD { packages := [{ id := 0, versions := [pvDefault] }] } pid).id
                  (i + 1)))).flatten
        ++ [(SBool.ble (getPkgD { packages := [{ id := 0, versions := [pvDefault] }] } pid).id
              (getPkgD { packages := [{ id := 0, versions := [pvDefault] }] } pid).versions.length,
              Expr.Atom (AtomicExpr.ver_le
                (getPkgD { packages := [{ id := 0, versions := [pvDefault] }] } pid).id
                (getPkgD { packages := [{ id := 0, versions := [pvDefault] }] } pid).versions.length))])
    ∧ (∀ rs : RequirementSet, rs.add_constraints =
        rs.dependencies.map Requirement.constraint_pair
          ++ rs.conflicts.map Requirement.conflict_pair) :=
  c7_emission_order { packages := [{ id := 0, versions := [pvDefault] }] } [0]
    { dependencies := [], conflicts := [] } (by decide)
    (List.pairwise_singleton _ _)

/-! ## Claims C5 and C8 — closure computation -/

/-- The packages transitively reached from the top-level requirements:
every package a top-level requirement mentions, plus everything mentioned
by the dependencies or conflicts of any version of a reached in-bounds
package. -/
inductive ReachPkg (repo : Repository) (reqs : List Requirement) : Nat → Prop
  | base (req : Requirement) (h : req ∈ reqs) : ReachPkg repo reqs req.package
  | step (p : Nat) (hp : ReachPkg repo reqs p) (hlt : p < repo.packages.length)
      (req : Requirement) (hreq : req ∈ (repo.packages.get ⟨p, hlt⟩).allReqs) :
      ReachPkg repo reqs req.package

lemma fch_nil (repo : Repository) (acc : List Nat) :
    find_closure_helper repo [] acc = Except.ok acc := by
  rw [find_closure_helper]

lemma fch_cons_seen (repo : Repository) (req : Requirement) (rest : List Requirement)
    (acc : List Nat) (hmem : req.package ∈ acc) :
    find_closure_helper repo (req :: rest) acc = find_closure_helper repo rest acc := by
  rw [find_closure_helper]
  rw [if_pos hmem]

lemma fch_cons_new (repo : Repository) (req : Requirement) (rest : List Requirement)
    (acc : List Nat) (hmem : req.package ∉ acc) (h : req.package < repo.packages.length) :
    find_closure_helper repo (req :: rest) acc =
      find_closure_helper repo ((repo.packages.get ⟨req.package, h⟩).allReqs ++ rest)
        (req.package :: acc) := by
  rw [find_closure_helper]
  rw [if_neg hmem, dif_pos h]

lemma fch_cons_oob (repo : Repository) (req : Requirement) (rest : List Requirement)
    (acc : List Nat) (hmem : req.package ∉ acc) (h : ¬ req.package < repo.packages.length) :
    find_closure_helper repo (req :: rest) acc = Except.error req.package := by
  rw [find_closure_helper]
  rw [if_neg hmem, dif_neg h]

/-- On success the result extends the accumulator and covers every worklist
package. -/
lemma fch_ok_covers (repo : Repository) :
    ∀ (wl : List Requirement) (acc : List Nat),
      ∀ res, find_closure_helper repo wl acc = Except.ok res →
        (∀ x ∈ acc, x ∈ res) ∧ (∀ req ∈ wl, req.package ∈ res) := by
  intro wl acc
  induction wl, acc using find_closure_helper.induct repo with
  | case1 acc =>
      intro res hres
      rw [fch_nil] at hres
      cases hres
      exact ⟨fun x hx => hx, fun req h => absurd h (List.not_mem_nil req)⟩
  | case2 req rest acc hmem ih =>
      intro res hres
      rw [fch_cons_seen repo req rest acc hmem] at hres
      obtain ⟨hacc, hwl⟩ := ih res hres
      refine ⟨hacc, fun r hr => ?_⟩
      rcases List.mem_cons.mp hr with h | h
      · subst h; exact hacc _ hmem
      · exact hwl r h
  | case3 req rest acc hmem h ih =>
      intro res hres
      rw [fch_cons_new repo req rest acc hmem h] at hres
      obtain ⟨hacc, hwl⟩ := ih res hres
      refine ⟨fun x hx => hacc x (List.mem_cons_of_mem _ hx), fun r hr => ?_⟩
      rcases List.mem_cons.mp hr with h' | h'
      · subst h'; exact hacc _ (List.mem_cons_self _ _)
      · exact hwl r (List.mem_append_right _ h')
  | case4 req rest acc hmem h =>
      intro res hres
      rw [fch_cons_oob repo req rest acc hmem h] at hres
      cases hres

/-- On success, if every accumulator member's children are accounted for in
the accumulator or the worklist, the result is closed under version
requirements. -/
lemma fch_ok_closed (repo : Repository) :
    ∀ (wl : List Requirement) (acc : List Nat),
      ∀ res, find_closure_helper repo wl acc = Except.ok res →
        (∀ p ∈ acc, ∀ h : p < repo.packages.length,
          ∀ req ∈ (repo.packages.get ⟨p, h⟩).allReqs,
            req.package ∈ acc ∨ ∃ r ∈ wl, r.package = req.package) →
        ∀ p ∈ res, ∀ h : p < repo.packages.length,
          ∀ req ∈ (repo.packages.get ⟨p, h⟩).allReqs, req.package ∈ res := by
  intro wl acc
  induction wl, acc using find_closure_helper.induct repo with
  | case1 acc =>
      intro res hres hinv
      rw [fch_nil] at hres
      cases hres
      intro p hp h req hreq
      rcases hinv p hp h req hreq with h' | ⟨r, hr, _⟩
      · exact h'
      · exact absurd hr (List.not_mem_nil r)
  | case2 req rest acc hmem ih =>
      intro res hres hinv
      rw [fch_cons_seen repo req rest acc hmem] at hres
      refine ih res hres ?_
      intro p hp h r hr
      rcases hinv p hp h r hr with h' | ⟨r', hr', heq⟩
      · exact Or.inl h'
      · rcases List.mem_cons.mp hr' with h'' | h''
        · subst h''; exact Or.inl (heq ▸ hmem)
        · exact Or.inr ⟨r', h'', heq⟩
  | case3 req rest acc hmem h ih =>
      intro res hres hinv
      rw [fch_cons_new repo req rest acc hmem h] at hres
      refine ih res hres ?_
      intro p hp hlt r hr
      rcases List.mem_cons.mp hp with h' | h'
      · subst h'
        refine Or.inr ⟨r, List.mem_append_left _ ?_, rfl⟩
        exact hr
      · rcases hinv p h' hlt r hr with h'' | ⟨r', hr', heq⟩
        · exact Or.inl (List.mem_cons_of_mem _ h'')
        · rcases List.mem_cons.mp hr' with h''' | h'''
          · subst h'''
            exact Or.inl (heq ▸ List.mem_cons_self _ _)
          · exact Or.inr ⟨r', List.mem_append_right _ h''', heq⟩
  | case4 req rest acc hmem h =>
      intro res hres _
      rw [fch_cons_oob repo req rest acc hmem h] at hres
      cases hres

/-- On success every member of the result is in bounds (given the initial
accumulator is). -/
lemma fch_ok_bounds (repo : Repository) :
    ∀ (wl : List Requirement) (acc : List Nat),
      ∀ res, find_closure_helper repo wl acc = Except.ok res →
        (∀ x ∈ acc, x < repo.packages.length) →
        ∀ x ∈ res, x < repo.packages.length := by
  intro wl acc
  induction wl, acc using find_closure_helper.induct repo with
  | case1 acc =>
      intro res hres hb
      rw [fch_nil] at hres
      cases hres
      exact hb
  | case2 req rest acc hmem ih =>
      intro res hres hb
      rw [fch_cons_seen repo req rest acc hmem] at hres
      exact ih res hres hb
  | case3 req rest acc hmem h ih =>
      intro res hres hb
      rw [fch_cons_new repo req rest acc hmem h] at hres
      refine ih res hres ?_
      intro x hx
      rcases List.mem_cons.mp hx with h' | h'
      · subst h'; exact h
      · exact hb x h'
  | case4 req rest acc hmem h =>
      intro res hres _
      rw [fch_cons_oob repo req rest acc hmem h] at hres
      cases hres

/-- On success the result is contained in every set that contains the
accumulator and worklist packages and is closed under version
requirements. -/
lemma fch_ok_minimal (repo : Repository) (S : Nat → Prop)
    (hS : ∀ p, S p → ∀ h : p < repo.packages.length,
      ∀ req ∈ (repo.packages.get ⟨p, h⟩).allReqs, S req.package) :
    ∀ (wl : List Requirement) (acc : List Nat),
      ∀ res, find_closure_helper repo wl acc = Except.ok res →
        (∀ x ∈ acc, S x) → (∀ req ∈ wl, S req.package) →
        ∀ x ∈ res, S x := by
  intro wl acc
  induction wl, acc using find_closure_helper.induct repo with
  | case1 acc =>
      intro res hres hacc _
      rw [fch_nil] at hres
      cases hres
      exact hacc
  | case2 req rest acc hmem ih =>
      intro res hres hacc hwl
      rw [fch_cons_seen repo req rest acc hmem] at hres
      exact ih res hres hacc (fun r hr => hwl r (List.mem_cons_of_mem _ hr))
  | case3 req rest acc hmem h ih =>
      intro res hres hacc hwl
      rw [fch_cons_new repo req rest acc hmem h] at hres
      have hreqS : S req.package := hwl req (List.mem_cons_self _ _)
      refine ih res hres ?_ ?_
      · intro x hx
        rcases List.mem_cons.mp hx with h' | h'
        · subst h'; exact hreqS
        · exact hacc x h'
      · intro r hr
        rcases List.mem_append.mp hr with h' | h'
        · exact hS req.package hreqS h r h'
        · exact hwl r (List.mem_cons_of_mem _ h')
  | case4 req rest acc hmem h =>
      intro res hres _ _
      rw [fch_cons_oob repo req rest acc hmem h] at hres
      cases hres

/-- On error the reported index is a worklist-reachable package out of
bounds, provided every worklist package is reachable. -/
lemma fch_err_reach (repo : Repository) (reqs0 : List Requirement) :
    ∀ (wl : List Requirement) (acc : List Nat),
      ∀ i, find_closure_helper repo wl acc = Except.error i →
        (∀ req ∈ wl, ReachPkg repo reqs0 req.package) →
        ReachPkg repo reqs0 i ∧ repo.packages.length ≤ i := by
  intro wl acc
  induction wl, acc using find_closure_helper.induct repo with
  | case1 acc =>
      intro i hres _
      rw [fch_nil] at hres
      cases hres
  | case2 req rest acc hmem ih =>
      intro i hres hwl
      rw [fch_cons_seen repo req rest acc hmem] at hres
      exact ih i hres (fun r hr => hwl r (List.mem_cons_of_mem _ hr))
  | case3 req rest acc hmem h ih =>
      intro i hres hwl
      rw [fch_cons_new repo req rest acc hmem h] at hres
      refine ih i hres ?_
      intro r hr
      rcases List.mem_append.mp hr with h' | h'
      · exact ReachPkg.step req.package (hwl req (List.mem_cons_self _ _)) h r h'
      · exact hwl r (List.mem_cons_of_mem _ h')
  | case4 req rest acc hmem h =>
      intro i hres hwl
      rw [fch_cons_oob repo req rest acc hmem h] at hres
      cases hres
      exact ⟨hwl req (List.mem_cons_self _ _), Nat.le_of_not_lt h⟩

/-- C5: for a repository whose reachable requirements mention only
in-bounds package ids, `find_closure` succeeds and returns exactly the
least set `S` such that every package mentioned in the top-level
requirements is in `S` and, for every `p ∈ S`, every package mentioned in
the dependencies or conflicts of every version of `p` is in `S`: the
result contains the base, is closed, and is contained in every such set. -/
theorem c5_find_closure_least (repo : Repository) (reqs : List Requirement)
    (hb : ∀ p, ReachPkg repo reqs p → p < repo.packages.length) :
    ∃ res, find_closure repo reqs = Except.ok res
      ∧ (∀ req ∈ reqs, req.package ∈ res)
      ∧ (∀ p ∈ res, ∀ h : p < repo.packages.length,
          ∀ req ∈ (repo.packages.get ⟨p, h⟩).allReqs, req.package ∈ res)
      ∧ (∀ S : Nat → Prop, (∀ req ∈ reqs, S req.package) →
          (∀ p, S p → ∀ h : p < repo.packages.length,
            ∀ req ∈ (repo.packages.get ⟨p, h⟩).allReqs, S req.package) →
          ∀ p ∈ res, S p) := by
  rcases hres : find_closure repo reqs with i | res
  · exfalso
    rw [find_closure] at hres
    obtain ⟨hreach, hge⟩ :=
      fch_err_reach repo reqs reqs [] i hres (fun r hr => ReachPkg.base r hr)
    exact absurd (hb i hreach) (Nat.not_lt.mpr hge)
  · rw [find_closure] at hres
    refine ⟨res, rfl, (fch_ok_covers repo reqs [] res hres).2, ?_, ?_⟩
    · exact fch_ok_closed repo reqs [] res hres
        (fun p hp => absurd hp (List.not_mem_nil p))
    · intro S hbase hclosed
      exact fch_ok_minimal repo S hclosed reqs [] res hres
        (fun x hx => absurd hx (List.not_mem_nil x)) hbase

/-- C5 (witness): the least-closure theorem applied at a concrete
repository (one package, no versions) with the single requirement on
package 0. -/
theorem c5_find_closure_least_witness :
    ∃ res, find_closure { packages := [{ id := 0, versions := [] }] }
        [{ package := 0, versions := [Range.All] }] = Except.ok res
      ∧ (∀ req ∈ [({ package := 0, versions := [Range.All] } : Requirement)],
          req.package ∈ res)
      ∧ (∀ p ∈ res, ∀ h : p < ({ packages := [{ id := 0, versions := [] }] } :
            Repository).packages.length,
          ∀ req ∈ (({ packages := [{ id := 0, versions := [] }] } :
            Repository).packages.get ⟨p, h⟩).allReqs, req.package ∈ res)
      ∧ (∀ S : Nat → Prop,
          (∀ req ∈ [({ package := 0, versions := [Range.All] } : Requirement)],
            S req.package) →
          (∀ p, S p → ∀ h : p < ({ packages := [{ id := 0, versions := [] }] } :
              Repository).packages.length,
            ∀ req ∈ (({ packages := [{ id := 0, versions := [] }] } :
              Repository).packages.get ⟨p, h⟩).allReqs, S req.package) →
          ∀ p ∈ res, S p) :=
  c5_find_closure_least { packages := [{ id := 0, versions := [] }] }
    [{ package := 0, versions := [Range.All] }]
    (by
      intro p hp
      induction hp with
      | base r hr =>
          rw [List.mem_singleton] at hr
          subst hr
          decide
      | step p hp hlt r hr ih =>
          have hp0 : p = 0 := by
            simp only [List.length_singleton] at hlt
            omega
          subst hp0
          simp [Package.allReqs, PackageVer.reqList] at hr)

/-- C8: `find_closure` fails with `IllegalIndex { index }` if and only if
some transitively reached requirement references a package id outside the
repository bounds, and the reported index is such a reached out-of-bounds
id.  Infeasibility plays no role: the error is characterised purely by
reachability of an out-of-bounds id. -/
theorem c8_illegal_index_iff (repo : Repository) (reqs : List Requirement) :
    (∀ i, find_closure repo reqs = Except.error i →
        ReachPkg repo reqs i ∧ repo.packages.length ≤ i)
    ∧ ((∃ i, find_closure repo reqs = Except.error i) ↔
        (∃ p, ReachPkg repo reqs p ∧ repo.packages.length ≤ p)) := by
  have herr : ∀ i, find_closure repo reqs = Except.error i →
      ReachPkg repo reqs i ∧ repo.packages.length ≤ i := by
    intro i hi
    rw [find_closure] at hi
    exact fch_err_reach repo reqs reqs [] i hi (fun r hr => ReachPkg.base r hr)
  refine ⟨herr, ⟨fun ⟨i, hi⟩ => ⟨i, herr i hi⟩, ?_⟩⟩
  rintro ⟨p, hp, hge⟩
  rcases hres : find_closure repo reqs with i | res
  · exact ⟨i, rfl⟩
  · exfalso
    rw [find_closure] at hres
    have hmem : p ∈ res := by
      clear hge
      induction hp with
      | base r hr => exact (fch_ok_covers repo reqs [] res hres).2 r hr
      | step q hq hlt r hr ih =>
          exact fch_ok_closed repo reqs [] res hres
            (fun x hx => absurd hx (List.not_mem_nil x)) q ih hlt r hr
    have := fch_ok_bounds repo reqs [] res hres
      (fun x hx => absurd hx (List.not_mem_nil x)) p hmem
    omega

/-- C8 (witness): the iff applied at a concrete repository with a
requirement on the out-of-bounds package id 5. -/
theorem c8_illegal_index_witness :
    ReachPkg { packages := [{ id := 0, versions := [] }] }
        [{ package := 5, versions := [Range.All] }] 5
      ∧ ({ packages := [{ id := 0, versions := [] }] } :
          Repository).packages.length ≤ 5 :=
  (c8_illegal_index_iff { packages := [{ id := 0, versions := [] }] }
      [{ package := 5, versions := [Range.All] }]).1 5
    (by
      rw [find_closure]
      exact fch_cons_oob _ _ _ _ (by simp) (by simp))

/-! ## Claim C9 — eager double-negation collapse -/

/-- C9 (counterexample): `Expr::not(b, Expr::not(b, e))` does **not** equal
`e` when `e` is itself a raw double negation `Not(Not(x))` (such values are
constructible with the public `Expr::Not` variant): both collapses strip a
negation and the result is `x`, not `e`. -/
theorem c9_counterexample :
    Expr.not (Expr.not (Expr.Not (Expr.Not (Expr.Atom (AtomicExpr.VerEq 0 1)))))
      ≠ Expr.Not (Expr.Not (Expr.Atom (AtomicExpr.VerEq 0 1))) := by
  decide

/-- C9 (amended): for every expression `e` that is not itself of the form
`Not(Not(x))`, `Expr::not(b, Expr::not(b, e)) = e`; moreover the smart
constructors never produce a `Not(Not(x))` shape: `Expr::not`, `Expr::and`,
`Expr::or` and `Expr::implies` all preserve freedom from double negation. -/
theorem c9_double_negation_amended :
    (∀ e : Expr, e.isDoubleNegTop = false → Expr.not (Expr.not e) = e)
    ∧ (∀ e : Expr, e.noDoubleNeg = true → (Expr.not e).noDoubleNeg = true)
    ∧ (∀ a b : Expr, a.noDoubleNeg = true → b.noDoubleNeg = true →
        (Expr.and a b).noDoubleNeg = true ∧ (Expr.or a b).noDoubleNeg = true ∧
        (Expr.implies a b).noDoubleNeg = true) := by
  refine ⟨?_, ?_, ?_⟩
  · intro e he
    match e with
    | Expr.Atom a => rfl
    | Expr.And a b => rfl
    | Expr.Or a b => rfl
    | Expr.Implies a b => rfl
    | Expr.Bot => rfl
    | Expr.Top => rfl
    | Expr.Not x =>
      match x with
      | Expr.Not y => simp [Expr.isDoubleNegTop] at he
      | Expr.Atom a => rfl
      | Expr.And a b => rfl
      | Expr.Or a b => rfl
      | Expr.Implies a b => rfl
      | Expr.Bot => rfl
      | Expr.Top => rfl
  · intro e he
    match e with
    | Expr.Atom a => exact he
    | Expr.And a b => exact he
    | Expr.Or a b => exact he
    | Expr.Implies a b => exact he
    | Expr.Bot => exact he
    | Expr.Top => exact he
    | Expr.Not x =>
      match x with
      | Expr.Not y => simp [Expr.noDoubleNeg] at he
      | Expr.Atom a => exact he
      | Expr.And a b => exact he
      | Expr.Or a b => exact he
      | Expr.Implies a b => exact he
      | Expr.Bot => exact he
      | Expr.Top => exact he
  · intro a b ha hb
    refine ⟨?_, ?_, ?_⟩ <;> simp [Expr.and, Expr.or, Expr.implies, Expr.noDoubleNeg, ha, hb]

/-- C9 (witness): the amended theorem applied at a concrete expression. -/
theorem c9_double_negation_witness :
    Expr.not (Expr.not (Expr.Atom (AtomicExpr.VerEq 3 7))) = Expr.Atom (AtomicExpr.VerEq 3 7) :=
  c9_double_negation_amended.1 (Expr.Atom (AtomicExpr.VerEq 3 7)) (by decide)

/-! ## Claim C10 — the swapped unit-constant glyphs -/

/-- C10: the pretty-printer renders `Expr::Bot` as the glyph "⊤" and
`Expr::Top` as "⊥" — each unit constant prints as the glyph conventionally
denoting the other — at every precedence, and hence in the user-visible
`Display` output (`render`, which uses the default outer precedence). -/
theorem c10_unit_constants_swapped :
    (∀ prec : ExprPrec,
        Expr.fmt_prec Expr.Bot prec = "⊤" ∧ Expr.fmt_prec Expr.Top prec = "⊥")
    ∧ Expr.render Expr.Bot = "⊤" ∧ Expr.render Expr.Top = "⊥" :=
  ⟨fun _ => ⟨rfl, rfl⟩, rfl, rfl⟩

/-! ## Claim C6 — retention policy of the model enumeration -/

/-- C6 (code evaluated at the failing input): `iter_max_map` — exactly as
`parallel_optimize_newest`/`parallel_optimize_minimal` invoke it, with the
metric tuples passed un-reversed — retains the model whose metric tuple is
the lexicographic **maximum**, not the minimum: with models `0` and `1`
whose tuples are `(0,0)` and `(1,0)`, the retained list is `[1]`, while the
claim requires `[0]` (the minimum-tied models). -/
theorem c6_iter_max_map_keeps_maximum :
    iter_max_map [(0 : Nat), 1]
        (fun i => if i = 0 then toLex ((0 : Nat), (0 : Nat)) else toLex (1, 0))
        (fun i => i)
      = [1] ∧
    iter_max_map [(0 : Nat), 1]
        (fun i => if i = 0 then toLex ((0 : Nat), (0 : Nat)) else toLex (1, 0))
        (fun i => i)
      ≠ [0] := by
  constructor <;> decide

/-! ## Claim C1 — unsat-core round trip -/

/-- A range admissible for a requirement: intervals are nonempty.  (This is
weaker than the overflow-free validity of C2; the decoder only needs
`lower ≤ upper`.) -/
def RangeWF : Range → Prop
  | Range.Interval l u => l ≤ u
  | _ => True

instance (r : Range) : Decidable (RangeWF r) := by
  cases r <;> simp [RangeWF] <;> infer_instance

/-- A requirement as the `Vec1`-based source guarantees it: a nonempty list
of well-formed ranges. -/
def ValidReq (req : Requirement) : Prop :=
  req.versions ≠ [] ∧ ∀ r ∈ req.versions, RangeWF r

instance (req : Requirement) : Decidable (ValidReq req) := by
  unfold ValidReq
  infer_instance

def ValidReqSet (rs : RequirementSet) : Prop :=
  (∀ q ∈ rs.dependencies, ValidReq q) ∧ ∀ q ∈ rs.conflicts, ValidReq q

instance (rs : RequirementSet) : Decidable (ValidReqSet rs) := by
  unfold ValidReqSet
  infer_instance

/-- A valid repository: the positional-id invariant
`repo.packages[id].id == id` holds and every version's requirement set is
valid. -/
def ValidRepo (repo : Repository) : Prop :=
  (∀ i < repo.packages.length, (repo.packages.getD i { id := 0, versions := [] }).id = i)
  ∧ ∀ pkg ∈ repo.packages, ∀ ver ∈ pkg.versions, ValidReqSet ver.requirements

instance (repo : Repository) : Decidable (ValidRepo repo) := by
  unfold ValidRepo
  infer_instance

/-- What the decoder's classification of a core assertion must mean,
relative to the paired SMT constraint: a discarded bound is trivially true
on `[0, N]`; a top-level dependency's range union is the constraint's
satisfying set; a conflict's is its complement; a per-package entry keeps
the guard `(V_pid == ver)` and its payload matches the inner constraint,
complemented when registered as a conflict. -/
def SemMatch (repo : Repository) (c : SBool) : DecodeStep → Prop
  | DecodeStep.discard pid =>
      ∀ σ : Nat → Nat, σ pid ≤ (repo.newest_ver_of pid).getD 0 → c.evalB σ = true
  | DecodeStep.topDep req =>
      ∀ σ : Nat → Nat, c.evalB σ = true ↔ ∃ r ∈ req.versions, r.rmem (σ req.package)
  | DecodeStep.topConf req =>
      ∀ σ : Nat → Nat, c.evalB σ = true ↔ ¬ ∃ r ∈ req.versions, r.rmem (σ req.package)
  | DecodeStep.pkgReq pid ver reverse req =>
      ∃ c2, c = SBool.bimp (SBool.beq pid ver) c2 ∧
        ∀ σ : Nat → Nat, c2.evalB σ = true ↔
          (if reverse then ¬ ∃ r ∈ req.versions, r.rmem (σ req.package)
           else ∃ r ∈ req.versions, r.rmem (σ req.package))

lemma expr_not_evalB (e : Expr) (σ : Nat → Nat) :
    (Expr.not e).evalB σ = !(e.evalB σ) := by
  cases e <;> simp [Expr.not, Expr.evalB]

/-- `merge_insert` preserves member nonemptiness (no `u64` bound needed). -/
lemma merge_insert_wf0 (iset : List IInterval) (I : IInterval)
    (hiset : ∀ x ∈ iset, x.1 ≤ x.2) (hI : I.1 ≤ I.2) :
    ∀ x ∈ merge_insert iset I, x.1 ≤ x.2 := by
  have hfold : ∀ (B : List IInterval) (acc : IInterval), acc.1 ≤ acc.2 →
      (∀ b ∈ B, b.1 ≤ b.2) → (B.foldl mergeI acc).1 ≤ (B.foldl mergeI acc).2 := by
    intro B
    induction B with
    | nil => intro acc h _; exact h
    | cons b B ih =>
        intro acc hacc hall
        refine ih (mergeI acc b) ?_ (fun x hx => hall x (List.mem_cons_of_mem b hx))
        have hb := hall b (List.mem_cons_self b B)
        obtain ⟨m1, m2, m3, m4, hc1, hc2⟩ := mergeI_facts acc b
        rcases hc1 with h | h <;> rcases hc2 with h' | h' <;> omega
  intro x hx
  rw [merge_insert_eq] at hx
  rcases List.mem_append.mp hx with h | h
  · rcases List.mem_append.mp h with h' | h'
    · exact hiset x ((List.takeWhile_sublist _).mem h')
    · rw [List.mem_singleton] at h'
      subst h'
      refine hfold _ I hI ?_
      intro b hb
      exact hiset b ((List.dropWhile_sublist _).mem ((List.takeWhile_sublist _).mem hb))
  · exact hiset x ((List.dropWhile_sublist _).mem ((List.dropWhile_sublist _).mem h))

lemma merge_insert_ne_nil (iset : List IInterval) (I : IInterval) :
    merge_insert iset I ≠ [] := by
  rw [merge_insert_eq]
  simp

/-- Without `All`, `msr_go` yields the image of a member-wise nonempty
interval set, nonempty as soon as the input or the accumulator is. -/
lemma msr_go_wf : ∀ (rs : List Range) (iset : List IInterval),
    Range.All ∉ rs → (∀ r ∈ rs, RangeWF r) → (∀ x ∈ iset, x.1 ≤ x.2) →
    ∃ iset' : List IInterval, msr_go rs iset = iset'.map toRangeI
      ∧ (∀ x ∈ iset', x.1 ≤ x.2)
      ∧ (rs ≠ [] ∨ iset ≠ [] → iset' ≠ []) := by
  intro rs
  induction rs with
  | nil =>
      intro iset _ _ hwf
      exact ⟨iset, rfl, hwf, fun h => by
        rcases h with h | h
        · exact absurd rfl h
        · exact h⟩
  | cons r rest ih =>
      intro iset hna hval hwf
      have hna' : Range.All ∉ rest := fun h => hna (List.mem_cons_of_mem r h)
      have hval' : ∀ x ∈ rest, RangeWF x := fun x hx => hval x (List.mem_cons_of_mem r hx)
      rcases r with ⟨l, u⟩ | v | _
      · have hlu : l ≤ u := hval (Range.Interval l u) (List.mem_cons_self _ _)
        obtain ⟨iset', heq, hwf', hne⟩ := ih (merge_insert iset (l, u)) hna' hval'
          (merge_insert_wf0 iset (l, u) hwf hlu)
        refine ⟨iset', heq, hwf', fun _ => hne (Or.inr (merge_insert_ne_nil _ _))⟩
      · obtain ⟨iset', heq, hwf', hne⟩ := ih (merge_insert iset (v, v)) hna' hval'
          (merge_insert_wf0 iset (v, v) hwf (le_refl v))
        refine ⟨iset', heq, hwf', fun _ => hne (Or.inr (merge_insert_ne_nil _ _))⟩
      · exact absurd (List.mem_cons_self _ _) hna

/-- The canonical list of a valid non-`All` requirement: nonempty, free of
`All`, and with strictly ordered interval bounds. -/
lemma msr_facts (req : Requirement) (hv : ValidReq req)
    (hall : Range.All ∉ req.versions) :
    merge_and_sort_ranges req.versions ≠ []
    ∧ Range.All ∉ merge_and_sort_ranges req.versions
    ∧ (∀ l u, Range.Interval l u ∈ merge_and_sort_ranges req.versions → l < u) := by
  obtain ⟨iset', heq, hwf', hne⟩ := msr_go_wf req.versions [] hall hv.2 (by simp)
  have hout : merge_and_sort_ranges req.versions = iset'.map toRangeI := heq
  have hne' : iset' ≠ [] := hne (Or.inl hv.1)
  refine ⟨by simpa [hout] using hne', all_not_mem_msr req.versions hall, ?_⟩
  intro l u h
  rw [hout] at h
  obtain ⟨x, hx, hxr⟩ := List.mem_map.mp h
  by_cases h12 : x.1 = x.2
  · simp [toRangeI, h12] at hxr
  · simp only [toRangeI, if_neg h12] at hxr
    cases hxr
    have := hwf' x hx
    omega

lemma pvr_enc_point (P v : Nat) :
    pvr_go (Expr.Atom (AtomicExpr.ver_eq P v)) = some (P, [Range.Point v]) := rfl

lemma pvr_enc_interval (P l u : Nat) (hlt : l < u) :
    pvr_go (Expr.and (Expr.Atom (AtomicExpr.ver_ge P l))
        (Expr.Atom (AtomicExpr.ver_le P u)))
      = some (P, [Range.Interval l u]) := by
  show (do
    let s1 : Nat × Nat × Nat ← some (P, l, 0)
    let s2 : Nat × Nat ← if P = s1.1 then some (s1.2.1, u) else none
    let r ← Range.interval s2.1 s2.2
    some (s1.1, [r]) : Option (Nat × List Range)) = some (P, [Range.Interval l u])
  simp [Range.interval, hlt]

/-- Folding further canonical ranges onto a decodable mirror keeps it
decodable, with the decoded ranges accumulating the folded ones. -/
lemma req_loop_decode (P : Nat) :
    ∀ (rs : List Range), Range.All ∉ rs →
      (∀ l u, Range.Interval l u ∈ rs → l < u) →
      ∀ (c : SBool) (m : Expr) (ds : List Range),
        pvr_go m = some (P, ds) → (∀ e, m ≠ Expr.Not e) → m ≠ Expr.Bot →
        ∃ ds', pvr_go (req_loop P c m rs).2 = some (P, ds')
          ∧ (∀ e, (req_loop P c m rs).2 ≠ Expr.Not e)
          ∧ ∀ v, ((∃ r ∈ ds', r.rmem v) ↔ ((∃ r ∈ ds, r.rmem v) ∨ ∃ r ∈ rs, r.rmem v)) := by
  intro rs
  induction rs with
  | nil =>
      intro _ _ c m ds hm hnn _
      exact ⟨ds, hm, hnn, fun v => by simp⟩
  | cons r rest ih =>
      intro hna hwf c m ds hm hnn hnb
      have hna' : Range.All ∉ rest := fun h => hna (List.mem_cons_of_mem r h)
      have hwf' : ∀ l u, Range.Interval l u ∈ rest → l < u :=
        fun l u h => hwf l u (List.mem_cons_of_mem r h)
      rcases r with ⟨l, u⟩ | v | _
      · have hlt : l < u := hwf l u (List.mem_cons_self _ _)
        rw [req_loop]
        rw [if_neg hnb]
        have hstep : pvr_go (Expr.or
            (Expr.and (Expr.Atom (AtomicExpr.ver_ge P l)) (Expr.Atom (AtomicExpr.ver_le P u)))
            m) = some (P, Range.Interval l u :: ds) := by
          show (do
            let p1 ← pvr_go (Expr.and (Expr.Atom (AtomicExpr.ver_ge P l))
              (Expr.Atom (AtomicExpr.ver_le P u)))
            let p2 ← pvr_go m
            if p1.1 = p2.1 then some (p1.1, p1.2 ++ p2.2) else none) =
            some (P, Range.Interval l u :: ds)
          rw [pvr_enc_interval P l u hlt, hm]
          simp
        obtain ⟨ds', h1, h2, h3⟩ := ih hna' hwf' _ _ (Range.Interval l u :: ds) hstep
          (fun e h => by cases h) (fun h => by cases h)
        refine ⟨ds', h1, h2, fun v => ?_⟩
        rw [h3 v]
        simp only [List.mem_cons]
        constructor
        · rintro (⟨x, hx | hx, hxm⟩ | ⟨x, hx, hxm⟩)
          · subst hx; exact Or.inr ⟨Range.Interval l u, Or.inl rfl, hxm⟩
          · exact Or.inl ⟨x, hx, hxm⟩
          · exact Or.inr ⟨x, Or.inr hx, hxm⟩
        · rintro (⟨x, hx, hxm⟩ | ⟨x, hx | hx, hxm⟩)
          · exact Or.inl ⟨x, Or.inr hx, hxm⟩
          · subst hx; exact Or.inl ⟨Range.Interval l u, Or.inl rfl, hxm⟩
          · exact Or.inr ⟨x, hx, hxm⟩
      · rw [req_loop]
        rw [if_neg hnb]
        have hstep : pvr_go (Expr.or (Expr.Atom (AtomicExpr.ver_eq P v)) m)
            = some (P, Range.Point v :: ds) := by
          show (do
            let p1 ← pvr_go (Expr.Atom (AtomicExpr.ver_eq P v))
            let p2 ← pvr_go m
            if p1.1 = p2.1 then some (p1.1, p1.2 ++ p2.2) else none) =
            some (P, Range.Point v :: ds)
          rw [pvr_enc_point, hm]
          simp
        obtain ⟨ds', h1, h2, h3⟩ := ih hna' hwf' _ _ (Range.Point v :: ds) hstep
          (fun e h => by cases h) (fun h => by cases h)
        refine ⟨ds', h1, h2, fun w => ?_⟩
        rw [h3 w]
        simp only [List.mem_cons]
        constructor
        · rintro (⟨x, hx | hx, hxm⟩ | ⟨x, hx, hxm⟩)
          · subst hx; exact Or.inr ⟨Range.Point v, Or.inl rfl, hxm⟩
          · exact Or.inl ⟨x, hx, hxm⟩
          · exact Or.inr ⟨x, Or.inr hx, hxm⟩
        · rintro (⟨x, hx, hxm⟩ | ⟨x, hx | hx, hxm⟩)
          · exact Or.inl ⟨x, Or.inr hx, hxm⟩
          · subst hx; exact Or.inl ⟨Range.Point v, Or.inl rfl, hxm⟩
          · exact Or.inr ⟨x, hx, hxm⟩
      · exact absurd (List.mem_cons_self _ _) hna

/-- The mirror of every valid requirement decodes through
`process_version_range`'s core: it yields the requirement's package id and
a range list denoting exactly the mirror's (= the constraint's) satisfying
set; and the mirror is either the `All` shape `Not(VerEq{P,0})` or not
`Not`-headed at all. -/
lemma requirement_mirror_decode_eval (req : Requirement) (hv : ValidReq req) :
    ∃ ds : List Range, pvr_go req.constraint_pair.2 = some (req.package, ds)
      ∧ (∀ σ : Nat → Nat,
          (∃ r ∈ ds, r.rmem (σ req.package)) ↔ req.constraint_pair.2.evalB σ = true)
      ∧ (req.constraint_pair.2 = Expr.Not (Expr.Atom (AtomicExpr.VerEq req.package 0))
          ∨ ∀ e, req.constraint_pair.2 ≠ Expr.Not e) := by
  by_cases hall : Range.All ∈ req.versions
  · obtain ⟨hc, hm⟩ := constraint_pair_all req hall
    refine ⟨[Range.All], ?_, ?_, Or.inl hm⟩
    · rw [hm]; rfl
    · intro σ
      rw [hm]
      simp [Expr.evalB, Range.rmem]
  · obtain ⟨hne, hnall, hwfint⟩ := msr_facts req hv hall
    have hkey : ∃ ds : List Range,
        pvr_go (req_loop req.package SBool.bfalse Expr.bot
          (merge_and_sort_ranges req.versions)).2 = some (req.package, ds)
        ∧ (∀ e, (req_loop req.package SBool.bfalse Expr.bot
            (merge_and_sort_ranges req.versions)).2 ≠ Expr.Not e)
        ∧ ∀ v, ((∃ r ∈ ds, r.rmem v) ↔
            ∃ r ∈ merge_and_sort_ranges req.versions, r.rmem v) := by
      rcases hmerged : merge_and_sort_ranges req.versions with _ | ⟨r1, rest⟩
      · exact absurd hmerged hne
      · have hnarest : Range.All ∉ rest := fun h =>
          hnall (hmerged ▸ List.mem_cons_of_mem r1 h)
        have hwfrest : ∀ l u, Range.Interval l u ∈ rest → l < u :=
          fun l u h => hwfint l u (hmerged ▸ List.mem_cons_of_mem r1 h)
        rcases r1 with ⟨l, u⟩ | v | _
        · have hlt : l < u := hwfint l u (hmerged ▸ List.mem_cons_self _ _)
          rw [req_loop, if_pos (show Expr.bot = Expr.Bot from rfl)]
          obtain ⟨ds', h1, h2, h3⟩ := req_loop_decode req.package rest hnarest hwfrest
            (SBool.bor SBool.bfalse
              (SBool.band (SBool.bge req.package l) (SBool.ble req.package u)))
            (Expr.and (Expr.Atom (AtomicExpr.ver_ge req.package l))
              (Expr.Atom (AtomicExpr.ver_le req.package u)))
            [Range.Interval l u] (pvr_enc_interval req.package l u hlt)
            (fun e h => by cases h) (fun h => by cases h)
          refine ⟨ds', h1, h2, fun v => ?_⟩
          rw [h3 v]
          simp [List.mem_cons]
        · rw [req_loop, if_pos (show Expr.bot = Expr.Bot from rfl)]
          obtain ⟨ds', h1, h2, h3⟩ := req_loop_decode req.package rest hnarest hwfrest
            (SBool.bor SBool.bfalse (SBool.beq req.package v))
            (Expr.Atom (AtomicExpr.ver_eq req.package v))
            [Range.Point v] (pvr_enc_point req.package v)
            (fun e h => by cases h) (fun h => by cases h)
          refine ⟨ds', h1, h2, fun w => ?_⟩
          rw [h3 w]
          simp [List.mem_cons]
        · exact absurd (hmerged ▸ List.mem_cons_self _ _) hnall
    obtain ⟨ds, h1, h2, h3⟩ := hkey
    refine ⟨ds, h1, fun σ => ?_, Or.inr h2⟩
    rw [h3 (σ req.package), constraint_pair_eval req σ, constraint_pair_c_iff req σ]

/-- The decoder's uniform classification of a requirement-level mirror: its
role (conflict when `true`) and the decoded requirement.  The top-level and
implication arms of `process_unsat_core` both follow this table. -/
def classifyMirror : Expr → Option (Bool × Requirement)
  | Expr.Atom (AtomicExpr.VerEq pid 0) =>
      some (true, { package := pid, versions := [Range.All] })
  | Expr.Atom (AtomicExpr.VerEq pid v) =>
      some (false, { package := pid, versions := [Range.Point v] })
  | Expr.Not e => (process_version_range e).map (fun r => (true, r))
  | e => (process_version_range e).map (fun r => (false, r))

/-- Mirrors the decoder can interpret as version ranges have one of four
head shapes. -/
lemma pvr_shape (m : Expr) (x : Nat × List Range) (h : pvr_go m = some x) :
    (∃ p v, m = Expr.Atom (AtomicExpr.VerEq p v))
    ∨ (∃ a b, m = Expr.And a b)
    ∨ (∃ a b, m = Expr.Or a b)
    ∨ (∃ p, m = Expr.Not (Expr.Atom (AtomicExpr.VerEq p 0))) := by
  match m with
  | Expr.Atom (AtomicExpr.VerEq p v) => exact Or.inl ⟨p, v, rfl⟩
  | Expr.Atom (AtomicExpr.VerLE p v) => cases h
  | Expr.Atom (AtomicExpr.VerGE p v) => cases h
  | Expr.And a b => exact Or.inr (Or.inl ⟨a, b, rfl⟩)
  | Expr.Or a b => exact Or.inr (Or.inr (Or.inl ⟨a, b, rfl⟩))
  | Expr.Not (Expr.Atom (AtomicExpr.VerEq p 0)) =>
      exact Or.inr (Or.inr (Or.inr ⟨p, rfl⟩))
  | Expr.Not (Expr.Atom (AtomicExpr.VerEq p (v + 1))) => cases h
  | Expr.Not (Expr.Atom (AtomicExpr.VerLE p v)) => cases h
  | Expr.Not (Expr.Atom (AtomicExpr.VerGE p v)) => cases h
  | Expr.Not (Expr.Not e) => cases h
  | Expr.Not (Expr.And a b) => cases h
  | Expr.Not (Expr.Or a b) => cases h
  | Expr.Not (Expr.Implies a b) => cases h
  | Expr.Not Expr.Bot => cases h
  | Expr.Not Expr.Top => cases h
  | Expr.Implies a b => cases h
  | Expr.Bot => cases h
  | Expr.Top => cases h

/-- For the four requirement-mirror shapes, the decoder's top-level arms
agree with `classifyMirror`: a conflict role becomes a top-level conflict,
a dependency role a top-level dependency. -/
lemma decode_top_eq_classify (repo : Repository) (m : Expr)
    (hsh : (∃ p v, m = Expr.Atom (AtomicExpr.VerEq p v))
      ∨ (∃ a b, m = Expr.And a b) ∨ (∃ a b, m = Expr.Or a b)
      ∨ (∃ e, m = Expr.Not e)) :
    decode_assertion repo m = (classifyMirror m).map
      (fun x => if x.1 then DecodeStep.topConf x.2 else DecodeStep.topDep x.2) := by
  rcases hsh with ⟨p, v, rfl⟩ | ⟨a, b, rfl⟩ | ⟨a, b, rfl⟩ | ⟨e, rfl⟩
  · cases v with
    | zero => rfl
    | succ n => rfl
  · show (process_version_range (Expr.And a b)).map DecodeStep.topDep =
      ((process_version_range (Expr.And a b)).map (fun r => (false, r))).map
        (fun x => if x.1 = true then DecodeStep.topConf x.2 else DecodeStep.topDep x.2)
    cases process_version_range (Expr.And a b) <;> rfl
  · show (process_version_range (Expr.Or a b)).map DecodeStep.topDep =
      ((process_version_range (Expr.Or a b)).map (fun r => (false, r))).map
        (fun x => if x.1 = true then DecodeStep.topConf x.2 else DecodeStep.topDep x.2)
    cases process_version_range (Expr.Or a b) <;> rfl
  · show (process_version_range e).map DecodeStep.topConf =
      ((process_version_range e).map (fun r => (true, r))).map
        (fun x => if x.1 = true then DecodeStep.topConf x.2 else DecodeStep.topDep x.2)
    cases process_version_range e <;> rfl

/-- The decoder's implication arm agrees with `classifyMirror` on the
right-hand side: the role becomes the `reverse` flag of the per-package
entry. -/
lemma decode_implies_eq_classify (repo : Repository) (pid k : Nat) (m : Expr) :
    decode_assertion repo (Expr.Implies (Expr.Atom (AtomicExpr.VerEq pid k)) m)
      = (classifyMirror m).map (fun x => DecodeStep.pkgReq pid k x.1 x.2) := by
  match m with
  | Expr.Atom (AtomicExpr.VerEq p 0) => rfl
  | Expr.Atom (AtomicExpr.VerEq p (v + 1)) => rfl
  | Expr.Atom (AtomicExpr.VerLE p v) => rfl
  | Expr.Atom (AtomicExpr.VerGE p v) => rfl
  | Expr.And a b =>
      show (process_version_range (Expr.And a b)).map
          (DecodeStep.pkgReq pid k false) =
        ((process_version_range (Expr.And a b)).map (fun r => (false, r))).map
          (fun x => DecodeStep.pkgReq pid k x.1 x.2)
      cases process_version_range (Expr.And a b) <;> rfl
  | Expr.Or a b =>
      show (process_version_range (Expr.Or a b)).map
          (DecodeStep.pkgReq pid k false) =
        ((process_version_range (Expr.Or a b)).map (fun r => (false, r))).map
          (fun x => DecodeStep.pkgReq pid k x.1 x.2)
      cases process_version_range (Expr.Or a b) <;> rfl
  | Expr.Not e =>
      show (process_version_range e).map (DecodeStep.pkgReq pid k true) =
        ((process_version_range e).map (fun r => (true, r))).map
          (fun x => DecodeStep.pkgReq pid k x.1 x.2)
      cases process_version_range e <;> rfl
  | Expr.Implies a b =>
      show (process_version_range (Expr.Implies a b)).map
          (DecodeStep.pkgReq pid k false) =
        ((process_version_range (Expr.Implies a b)).map (fun r => (false, r))).map
          (fun x => DecodeStep.pkgReq pid k x.1 x.2)
      rfl
  | Expr.Bot => rfl
  | Expr.Top => rfl

lemma classify_not (e : Expr) :
    classifyMirror (Expr.Not e) = (process_version_range e).map (fun r => (true, r)) := rfl

lemma classify_and (a b : Expr) :
    classifyMirror (Expr.And a b)
      = (process_version_range (Expr.And a b)).map (fun r => (false, r)) := rfl

lemma classify_or (a b : Expr) :
    classifyMirror (Expr.Or a b)
      = (process_version_range (Expr.Or a b)).map (fun r => (false, r)) := rfl

lemma classify_some_shape (m : Expr) (x : Bool × Requirement)
    (h : classifyMirror m = some x) :
    (∃ p v, m = Expr.Atom (AtomicExpr.VerEq p v))
    ∨ (∃ a b, m = Expr.And a b) ∨ (∃ a b, m = Expr.Or a b)
    ∨ (∃ e, m = Expr.Not e) := by
  match m with
  | Expr.Atom (AtomicExpr.VerEq p v) => exact Or.inl ⟨p, v, rfl⟩
  | Expr.Atom (AtomicExpr.VerLE p v) => cases h
  | Expr.Atom (AtomicExpr.VerGE p v) => cases h
  | Expr.And a b => exact Or.inr (Or.inl ⟨a, b, rfl⟩)
  | Expr.Or a b => exact Or.inr (Or.inr (Or.inl ⟨a, b, rfl⟩))
  | Expr.Not e => exact Or.inr (Or.inr (Or.inr ⟨e, rfl⟩))
  | Expr.Implies a b => cases h
  | Expr.Bot => cases h
  | Expr.Top => cases h

lemma expr_not_of_no_not (m : Expr) (h : ∀ e, m ≠ Expr.Not e) :
    Expr.not m = Expr.Not m := by
  match m with
  | Expr.Atom a => rfl
  | Expr.And a b => rfl
  | Expr.Or a b => rfl
  | Expr.Implies a b => rfl
  | Expr.Bot => rfl
  | Expr.Top => rfl
  | Expr.Not e => exact absurd rfl (h e)

/-- A valid requirement's dependency mirror classifies, and the classified
role and range list denote exactly the satisfying set of the paired SMT
constraint. -/
lemma classify_sem_dep (req : Requirement) (hv : ValidReq req) :
    ∃ rev req', classifyMirror req.constraint_pair.2 = some (rev, req')
      ∧ ∀ σ : Nat → Nat, (req.constraint_pair.1.evalB σ = true ↔
          (if rev then ¬ ∃ r ∈ req'.versions, r.rmem (σ req'.package)
           else ∃ r ∈ req'.versions, r.rmem (σ req'.package))) := by
  obtain ⟨ds, hpvr, hsem, hshape⟩ := requirement_mirror_decode_eval req hv
  have hev : ∀ σ, req.constraint_pair.2.evalB σ = req.constraint_pair.1.evalB σ :=
    constraint_pair_eval req
  rcases hshape with hAll | hnn
  · refine ⟨true, { package := req.package, versions := [Range.Point 0] }, ?_, ?_⟩
    · rw [hAll]; rfl
    · intro σ
      have := hev σ
      rw [hAll] at this
      simp only [Expr.evalB] at this
      rw [if_pos rfl]
      simp only [Range.rmem, List.mem_singleton]
      constructor
      · intro hc
        rw [← this] at hc
        simp at hc
        intro hcon
        obtain ⟨r, hr, hrm⟩ := hcon
        subst hr
        exact hc hrm
      · intro hnc
        rw [← this]
        simp only [Bool.not_eq_true']
        by_contra hb
        simp only [Bool.not_eq_false] at hb
        simp at hb
        exact hnc ⟨Range.Point 0, rfl, hb⟩
  · rcases pvr_shape _ _ hpvr with ⟨p, v, hm⟩ | ⟨a, b, hm⟩ | ⟨a, b, hm⟩ | ⟨p, hm⟩
    · have hds : pvr_go (Expr.Atom (AtomicExpr.VerEq p v)) = some (p, [Range.Point v]) := rfl
      rw [hm] at hpvr
      rw [hds] at hpvr
      injection hpvr with hpvr'
      have hp : p = req.package := congrArg Prod.fst hpvr'
      have hds' : ds = [Range.Point v] := (congrArg Prod.snd hpvr').symm
      subst hp
      subst hds'
      cases v with
      | zero =>
          refine ⟨true, { package := req.package, versions := [Range.All] },
            by rw [hm]; rfl, ?_⟩
          intro σ
          rw [if_pos rfl]
          have h2 := hev σ
          rw [hm] at h2
          simp only [Expr.evalB] at h2
          simp only [Range.rmem, List.mem_singleton]
          constructor
          · intro hc
            have hz : σ req.package = 0 := by
              have h3 := h2.trans hc
              simpa using h3
            rintro ⟨r, hr, hrm⟩
            subst hr
            exact hrm hz
          · intro hnc
            have hz : σ req.package = 0 := by
              by_contra hne
              exact hnc ⟨Range.All, rfl, hne⟩
            rw [← h2, hz]
            simp
      | succ n =>
          refine ⟨false, { package := req.package, versions := [Range.Point (n + 1)] },
            by rw [hm]; rfl, ?_⟩
          intro σ
          rw [if_neg (by simp)]
          rw [← hev σ]
          exact (hsem σ).symm
    · have hpvr' := hpvr
      rw [hm] at hpvr'
      refine ⟨false, { package := req.package, versions := ds }, ?_, ?_⟩
      · rw [hm, classify_and]
        simp [process_version_range, hpvr']
      · intro σ
        rw [if_neg (by simp)]
        rw [← hev σ]
        exact (hsem σ).symm
    · have hpvr' := hpvr
      rw [hm] at hpvr'
      refine ⟨false, { package := req.package, versions := ds }, ?_, ?_⟩
      · rw [hm, classify_or]
        simp [process_version_range, hpvr']
      · intro σ
        rw [if_neg (by simp)]
        rw [← hev σ]
        exact (hsem σ).symm
    · exact absurd hm (hnn _)

/-- The conflict variant: the negated pair classifies as a conflict whose
ranges denote the complement of the negated constraint's satisfying set. -/
lemma classify_sem_conflict (req : Requirement) (hv : ValidReq req) :
    ∃ rev req', classifyMirror (Expr.not req.constraint_pair.2) = some (rev, req')
      ∧ ∀ σ : Nat → Nat, ((SBool.bnot req.constraint_pair.1).evalB σ = true ↔
          (if rev then ¬ ∃ r ∈ req'.versions, r.rmem (σ req'.package)
           else ∃ r ∈ req'.versions, r.rmem (σ req'.package))) := by
  obtain ⟨ds, hpvr, hsem, hshape⟩ := requirement_mirror_decode_eval req hv
  have hev : ∀ σ, req.constraint_pair.2.evalB σ = req.constraint_pair.1.evalB σ :=
    constraint_pair_eval req
  rcases hshape with hAll | hnn
  · have hnot : Expr.not req.constraint_pair.2
        = Expr.Atom (AtomicExpr.VerEq req.package 0) := by
      rw [hAll]; rfl
    refine ⟨true, { package := req.package, versions := [Range.All] }, by rw [hnot]; rfl, ?_⟩
    intro σ
    rw [if_pos rfl]
    have h2 := hev σ
    rw [hAll] at h2
    simp only [Expr.evalB] at h2
    simp only [SBool.evalB, Range.rmem, List.mem_singleton]
    constructor
    · intro hc
      rintro ⟨r, hr, hrm⟩
      subst hr
      have : σ req.package = 0 := by
        rw [Bool.not_eq_true'] at hc
        rw [← h2] at hc
        simpa using hc
      exact hrm this
    · intro hnc
      have hz : σ req.package = 0 := by
        by_contra hne
        exact hnc ⟨Range.All, rfl, hne⟩
      rw [Bool.not_eq_true', ← h2, hz]
      simp
  · have hnot : Expr.not req.constraint_pair.2 = Expr.Not req.constraint_pair.2 :=
      expr_not_of_no_not _ hnn
    refine ⟨true, { package := req.package, versions := ds }, ?_, ?_⟩
    · rw [hnot, classify_not, process_version_range, hpvr]
      rfl
    · intro σ
      rw [if_pos rfl]
      simp only [SBool.evalB, Bool.not_eq_true']
      constructor
      · intro hc hcon
        have := (hsem σ).mp hcon
        rw [hev σ] at this
        rw [hc] at this
        cases this
      · intro hnc
        by_contra hb
        have hb' : req.constraint_pair.1.evalB σ = true := by
          cases hcs : req.constraint_pair.1.evalB σ
          · exact absurd hcs hb
          · rfl
        apply hnc
        apply (hsem σ).mpr
        rw [hev σ]
        exact hb'

/-- A valid requirement's dependency pair decodes at the top level to a
step semantically matching its constraint. -/
lemma dep_pair_decode (repo : Repository) (req : Requirement) (hv : ValidReq req) :
    ∃ d, decode_assertion repo req.constraint_pair.2 = some d
      ∧ SemMatch repo req.constraint_pair.1 d := by
  obtain ⟨rev, req', hcl, hsem⟩ := classify_sem_dep req hv
  have hsh := classify_some_shape _ _ hcl
  cases rev with
  | false =>
      refine ⟨DecodeStep.topDep req', ?_, ?_⟩
      · rw [decode_top_eq_classify repo _ hsh, hcl]
        rfl
      · intro σ
        have h := hsem σ
        rw [if_neg (by simp)] at h
        exact h
  | true =>
      refine ⟨DecodeStep.topConf req', ?_, ?_⟩
      · rw [decode_top_eq_classify repo _ hsh, hcl]
        rfl
      · intro σ
        have h := hsem σ
        rw [if_pos rfl] at h
        exact h

/-- A valid requirement's conflict pair decodes at the top level to a step
semantically matching the negated constraint. -/
lemma conflict_pair_decode (repo : Repository) (req : Requirement) (hv : ValidReq req) :
    ∃ d, decode_assertion repo req.conflict_pair.2 = some d
      ∧ SemMatch repo req.conflict_pair.1 d := by
  show ∃ d, decode_assertion repo (Expr.not req.constraint_pair.2) = some d
    ∧ SemMatch repo (SBool.bnot req.constraint_pair.1) d
  obtain ⟨rev, req', hcl, hsem⟩ := classify_sem_conflict req hv
  have hsh := classify_some_shape _ _ hcl
  cases rev with
  | false =>
      refine ⟨DecodeStep.topDep req', ?_, ?_⟩
      · rw [decode_top_eq_classify repo _ hsh, hcl]
        rfl
      · intro σ
        have h := hsem σ
        rw [if_neg (by simp)] at h
        exact h
  | true =>
      refine ⟨DecodeStep.topConf req', ?_, ?_⟩
      · rw [decode_top_eq_classify repo _ hsh, hcl]
        rfl
      · intro σ
        have h := hsem σ
        rw [if_pos rfl] at h
        exact h

/-- A version's wrapped dependency pair decodes to a per-package entry
keeping the `(V_pid == k)` guard, with matching payload semantics. -/
lemma implies_dep_pair_decode (repo : Repository) (pid k : Nat) (q : Requirement)
    (hv : ValidReq q) :
    ∃ d, decode_assertion repo
        (Expr.implies (Expr.Atom (AtomicExpr.ver_eq pid k)) q.constraint_pair.2) = some d
      ∧ SemMatch repo (SBool.bimp (SBool.beq pid k) q.constraint_pair.1) d := by
  obtain ⟨rev, req', hcl, hsem⟩ := classify_sem_dep q hv
  refine ⟨DecodeStep.pkgReq pid k rev req', ?_, ?_⟩
  · show decode_assertion repo
        (Expr.Implies (Expr.Atom (AtomicExpr.VerEq pid k)) q.constraint_pair.2) = _
    rw [decode_implies_eq_classify, hcl]
    rfl
  · exact ⟨q.constraint_pair.1, rfl, hsem⟩

/-- The conflict analogue: a wrapped conflict pair decodes to a per-package
entry registered with `reverse` semantics. -/
lemma implies_conflict_pair_decode (repo : Repository) (pid k : Nat) (q : Requirement)
    (hv : ValidReq q) :
    ∃ d, decode_assertion repo
        (Expr.implies (Expr.Atom (AtomicExpr.ver_eq pid k)) q.conflict_pair.2) = some d
      ∧ SemMatch repo (SBool.bimp (SBool.beq pid k) q.conflict_pair.1) d := by
  obtain ⟨rev, req', hcl, hsem⟩ := classify_sem_conflict q hv
  refine ⟨DecodeStep.pkgReq pid k rev req', ?_, ?_⟩
  · show decode_assertion repo
        (Expr.Implies (Expr.Atom (AtomicExpr.VerEq pid k))
          (Expr.not q.constraint_pair.2)) = _
    rw [decode_implies_eq_classify, hcl]
    rfl
  · exact ⟨SBool.bnot q.constraint_pair.1, rfl, hsem⟩

/-- The ground lower bound decodes to a discard, trivially true. -/
lemma lower_bound_decode (repo : Repository) (pid : Nat) :
    decode_assertion repo (Expr.Atom (AtomicExpr.ver_ge pid 0))
        = some (DecodeStep.discard pid)
      ∧ SemMatch repo (SBool.bge pid 0) (DecodeStep.discard pid) := by
  refine ⟨rfl, ?_⟩
  intro σ _
  simp [SBool.evalB]

/-- The ground upper bound decodes to a discard whenever the repository
lookup returns the same newest version number, and is true on `[0, N]`. -/
lemma upper_bound_decode (repo : Repository) (pid N : Nat)
    (hn : repo.newest_ver_of pid = some N) :
    decode_assertion repo (Expr.Atom (AtomicExpr.ver_le pid N))
        = some (DecodeStep.discard pid)
      ∧ SemMatch repo (SBool.ble pid N) (DecodeStep.discard pid) := by
  constructor
  · show ((repo.newest_ver_of pid).bind (fun n =>
        if N = n then some (DecodeStep.discard pid) else none))
      = some (DecodeStep.discard pid)
    rw [hn]
    simp
  · intro σ hσ
    rw [hn] at hσ
    simp only [Option.getD_some] at hσ
    simp [SBool.evalB, hσ]

/-- An emitted `(constraint, mirror)` pair on which the decoder succeeds
with a semantically matching step. -/
def GoodPair (repo : Repository) (cm : SBool × Expr) : Prop :=
  ∃ d, decode_assertion repo cm.2 = some d ∧ SemMatch repo cm.1 d

/-- Every pair a valid requirement set emits is good. -/
lemma reqset_pairs_good (repo : Repository) (rs : RequirementSet) (hv : ValidReqSet rs) :
    ∀ cm ∈ rs.add_constraints, GoodPair repo cm := by
  intro cm hcm
  rw [RequirementSet.add_constraints, List.mem_append] at hcm
  rcases hcm with hcm | hcm
  · obtain ⟨q, hq, rfl⟩ := List.mem_map.mp hcm
    exact dep_pair_decode repo q (hv.1 q hq)
  · obtain ⟨q, hq, rfl⟩ := List.mem_map.mp hcm
    exact conflict_pair_decode repo q (hv.2 q hq)

/-- Every pair a package block emits is good, given valid version
requirement sets and an agreeing newest-version lookup. -/
lemma package_pairs_good (repo : Repository) (p : Package)
    (hvers : ∀ ver ∈ p.versions, ValidReqSet ver.requirements)
    (hnew : repo.newest_ver_of p.id = some p.versions.length) :
    ∀ cm ∈ p.add_constraints, GoodPair repo cm := by
  intro cm hcm
  rw [package_add_constraints_shape] at hcm
  simp only [List.mem_append, List.mem_singleton, List.mem_flatten, List.mem_map,
    List.mem_range] at hcm
  rcases hcm with (hcm | ⟨blk, ⟨i, hi, rfl⟩, hblk⟩) | hcm
  · subst hcm
    exact ⟨DecodeStep.discard p.id, (lower_bound_decode repo p.id).1,
      (lower_bound_decode repo p.id).2⟩
  · have hmemv : p.versions.getD i pvDefault ∈ p.versions := by
      rw [List.getD_eq_getElem _ _ hi]
      exact List.getElem_mem hi
    have hval := hvers _ hmemv
    rw [RequirementSet.add_constraints, List.map_append, List.mem_append] at hblk
    rcases hblk with hblk | hblk
    · rw [List.map_map, List.mem_map] at hblk
      obtain ⟨q, hq, rfl⟩ := hblk
      exact implies_dep_pair_decode repo p.id (i + 1) q (hval.1 q hq)
    · rw [List.map_map, List.mem_map] at hblk
      obtain ⟨q, hq, rfl⟩ := hblk
      exact implies_conflict_pair_decode repo p.id (i + 1) q (hval.2 q hq)
  · subst hcm
    exact ⟨DecodeStep.discard p.id, (upper_bound_decode repo p.id _ hnew).1,
      (upper_bound_decode repo p.id _ hnew).2⟩

/-- Every pair the whole encoder emits for a valid repository, in-bounds
ids and a valid top-level requirement set is good. -/
lemma all_pairs_good (repo : Repository) (pids : List Nat) (reqs : RequirementSet)
    (hrepo : ValidRepo repo) (hb : ∀ p ∈ pids, p < repo.packages.length)
    (hreqs : ValidReqSet reqs) :
    ∀ cm ∈ (add_all_constraints repo pids reqs).getD [], GoodPair repo cm := by
  rw [add_all_constraints_eq repo pids reqs hb]
  intro cm hcm
  simp only [Option.getD_some, List.mem_append, List.mem_flatten, List.mem_map] at hcm
  rcases hcm with ⟨blk, ⟨pid, hpid, rfl⟩, hblk⟩ | hcm
  · have hlt := hb pid hpid
    have hget : repo.get_package pid = some (repo.packages.get ⟨pid, hlt⟩) := by
      simp [Repository.get_package, List.get?_eq_get hlt]
    have hgd : getPkgD repo pid = repo.packages.get ⟨pid, hlt⟩ := by
      rw [getPkgD, hget]
      rfl
    have hmem : getPkgD repo pid ∈ repo.packages := by
      rw [hgd]
      exact List.get_mem _ _ _
    have hid : (getPkgD repo pid).id = pid := hrepo.1 pid hlt
    have hvers : ∀ ver ∈ (getPkgD repo pid).versions, ValidReqSet ver.requirements :=
      hrepo.2 _ hmem
    have hnew : repo.newest_ver_of (getPkgD repo pid).id
        = some (getPkgD repo pid).versions.length := by
      rw [hid, Repository.newest_ver_of, hget, hgd]
      rfl
    exact package_pairs_good repo _ hvers hnew cm hblk
  · exact reqset_pairs_good repo reqs hreqs cm hcm

/-- If every core assertion decodes, the `process_unsat_core` fold
succeeds from any starting state. -/
lemma foldlM_decode_isSome (repo : Repository) :
    ∀ ms : List Expr, (∀ m ∈ ms, (decode_assertion repo m).isSome) →
      ∀ st : CoreState,
        (ms.foldlM (fun st e => (decode_assertion repo e).map st.apply) st).isSome := by
  intro ms
  induction ms with
  | nil => intro _ st; rfl
  | cons m ms ih =>
      intro h st
      have hm := h m (List.mem_cons_self m ms)
      obtain ⟨d, hd⟩ := Option.isSome_iff_exists.mp hm
      rw [List.foldlM_cons, hd]
      simp only [Option.map_some']
      exact ih (fun x hx => h x (List.mem_cons_of_mem m hx)) (st.apply d)

/-- `process_unsat_core` succeeds on any list of decodable assertions. -/
lemma process_core_isSome (repo : Repository) (ms : List Expr)
    (h : ∀ m ∈ ms, (decode_assertion repo m).isSome) :
    (process_unsat_core repo ms).isSome := by
  obtain ⟨st, hst⟩ := Option.isSome_iff_exists.mp (foldlM_decode_isSome repo ms h
    { package_reqs := [], dependencies := [], conflicts := [] })
  simp only [process_unsat_core]
  rw [hst]
  rfl

/-- C1: for a valid repository, in-bounds ids and a valid top-level
requirement set, the encoder succeeds; every emitted mirror is recognised
by the decoder — no panic, failed `assert_eq` or failed `Range::interval`
is reachable — and the decoded step matches the paired SMT constraint
semantically (range union equals the satisfying set of the constraint, its
complement for conflicts, guard kept for per-package entries, and trivial
truth on `[0, N]` for the discarded ground bounds); and `process_unsat_core`
succeeds on every list of emitted mirrors, in particular on any unsat core. -/
theorem c1_roundtrip (repo : Repository) (pids : List Nat) (reqs : RequirementSet)
    (hrepo : ValidRepo repo) (hb : ∀ p ∈ pids, p < repo.packages.length)
    (hreqs : ValidReqSet reqs) :
    (add_all_constraints repo pids reqs).isSome
    ∧ (∀ cm ∈ (add_all_constraints repo pids reqs).getD [],
        ∃ d, decode_assertion repo cm.2 = some d ∧ SemMatch repo cm.1 d)
    ∧ ∀ ms : List Expr,
        (∀ m ∈ ms, ∃ cm ∈ (add_all_constraints repo pids reqs).getD [], m = cm.2) →
        (process_unsat_core repo ms).isSome := by
  have hgood := all_pairs_good repo pids reqs hrepo hb hreqs
  refine ⟨?_, fun cm hcm => hgood cm hcm, ?_⟩
  · rw [add_all_constraints_eq repo pids reqs hb]
    rfl
  · intro ms hms
    apply process_core_isSome
    intro m hm
    obtain ⟨cm, hcm, rfl⟩ := hms m hm
    obtain ⟨d, hd, _⟩ := hgood cm hcm
    rw [hd]
    rfl

/-- A one-package repository for exercising the round-trip theorem. -/
def w1Repo : Repository :=
  { packages := [
      { id := 0,
        versions := [
          { requirements :=
              { dependencies := [{ package := 0, versions := [Range.Point 1] }],
                conflicts := [] } }] }] }

/-- A top-level requirement set for exercising the round-trip theorem. -/
def w1Reqs : RequirementSet :=
  { dependencies := [{ package := 0, versions := [Range.Point 1] }],
    conflicts := [{ package := 0, versions := [Range.All] }] }

theorem c1_roundtrip_witness :
    (ValidRepo w1Repo ∧ (∀ p ∈ [0], p < w1Repo.packages.length) ∧ ValidReqSet w1Reqs)
    ∧ (add_all_constraints w1Repo [0] w1Reqs).isSome := by
  refine ⟨⟨by decide, by decide, by decide⟩, ?_⟩
  exact (c1_roundtrip w1Repo [0] w1Reqs (by decide) (by decide) (by decide)).1

end Libresolv
